import Mathlib

/-!
# Verification of the second-opinion core against its specification

Shallow embedding of the core components of the `second-opinion` repository:

* the bounded-memory streaming diff processor (`memory.go`:
  `truncateLine`, `SafeDiffProcessor.ProcessChunk`, `SafeDiffProcessor.GetResult`),
* the retry layer (`llm/retry.go`: `RetryConfig`, `IsRetryableError`,
  `IsRetryableHTTPStatus`, `CalculateDelay`, `RetryableHTTPRequest`),
* the chunked analysis orchestrator (`llm/provider.go`:
  `splitContentIntoChunks`, `analyzeInChunks`),
* the provider registry (`main.go`: `getOrCreateProvider`), modelled as an
  explicit two-caller interleaving machine.

Bytes of the text stream are modelled as `Char`; Go byte strings become
`List Char`; Go `int`/`int64` counters that can only hold non-negative values
in these code paths become `Nat`; Go slice-bound panics become `Option.none`;
Go `float64`/`time.Duration` arithmetic in `CalculateDelay` is modelled over
`ℚ` (exact arithmetic, elementwise the same formula).
-/

/-! ## Memory configuration (config.MemoryConfig, config/config.go) -/

/-- The fields of `config.MemoryConfig` used by the diff processor. -/
structure MemoryConfig where
  MaxDiffSizeMB : Nat
  MaxFileCount : Nat
  MaxLineLength : Nat
  deriving Repr, DecidableEq

/-- `maxBytes := int64(p.memConfig.MaxDiffSizeMB * 1024 * 1024)` (memory.go). -/
def maxBytes (cfg : MemoryConfig) : Nat :=
  cfg.MaxDiffSizeMB * 1024 * 1024

/-! ## Line splitting helpers (spec side, shared by several statements)

`splitLines s` is the list of maximal newline-free segments of `s`:
`splitLines "a\nb" = ["a", "b"]`, `splitLines "a\n" = ["a", ""]`.
All segments except the last were terminated by a `'\n'` in `s`; the last
segment is the trailing partial line (empty iff `s` ends with `'\n'` or is
empty). -/

def splitLines : List Char → List (List Char)
  | [] => [[]]
  | b :: rest =>
    if b = '\n' then [] :: splitLines rest
    else
      match splitLines rest with
      | [] => [[b]]
      | l :: ls => (b :: l) :: ls

/-- The newline-terminated lines of a stream. -/
def terminatedLines (s : List Char) : List (List Char) :=
  (splitLines s).dropLast

/-- The trailing partial line of a stream (empty iff the stream is empty or
ends with a newline). -/
def lastLine (s : List Char) : List Char :=
  (splitLines s).getLastD []

/-- Reassemble newline-terminated lines: each line followed by `'\n'`. -/
def joinLines (ls : List (List Char)) : List Char :=
  ls.foldr (fun l acc => l ++ '\n' :: acc) []

/-- `startsWith s pre` is Go `strings.HasPrefix(s, pre)`. -/
def startsWith : List Char → List Char → Bool
  | _, [] => true
  | [], _ :: _ => false
  | a :: s, b :: p => a = b && startsWith s p

/-- The file-section marker `"diff --git"` (memory.go line 194). -/
def marker : List Char := "diff --git".toList

/-- Whether a line opens a new file section. -/
def isDiffHeader (l : List Char) : Bool := startsWith l marker

/-- Number of newline-terminated file-section header lines in a stream. -/
def markerCount (s : List Char) : Nat :=
  ((terminatedLines s).filter isDiffHeader).length

theorem splitLines_ne_nil (s : List Char) : splitLines s ≠ [] := by
  cases s with
  | nil => simp [splitLines]
  | cons b rest =>
    by_cases hb : b = '\n'
    · simp [splitLines, hb]
    · simp only [splitLines, if_neg hb]
      cases h : splitLines rest with
      | nil => simp
      | cons l ls => simp

theorem splitLines_no_nl {s : List Char} (h : '\n' ∉ s) : splitLines s = [s] := by
  induction s with
  | nil => rfl
  | cons b rest ih =>
    simp only [List.mem_cons, not_or] at h
    have hb : b ≠ '\n' := fun hc => h.1 hc.symm
    simp only [splitLines, if_neg hb, ih h.2]

/-! ## truncateLine (memory.go lines 143-148)

```go
func truncateLine(line string, maxLength int) string {
    if len(line) <= maxLength { return line }
    return line[:maxLength-3] + "..."
}
```

In the second branch `len(line) > maxLength`, so the slice upper bound
`maxLength-3 < len(line)` always holds; the slice is in range iff
`maxLength-3 ≥ 0`.  A `maxLength < 3` configuration therefore panics on the
slice (modelled by `none`). -/

def ellipsis : List Char := ['.', '.', '.']

def truncateLine (line : List Char) (maxLength : Nat) : Option (List Char) :=
  if line.length ≤ maxLength then
    some line
  else if 3 ≤ maxLength then
    some (line.take (maxLength - 3) ++ ellipsis)
  else
    none

/-! ## SafeDiffProcessor (memory.go lines 150-238) -/

/-- The mutable per-stream state of `SafeDiffProcessor`.  `memConfig` is the
configuration pointer; `buffer` the output `bytes.Buffer`; the remaining
fields mirror the Go struct.  The unused `ChunkSizeMB`/`EnableStreaming`
config fields are omitted. -/
structure SafeDiffProcessor where
  memConfig : MemoryConfig
  buffer : List Char
  lineBuffer : List Char
  bytesRead : Nat
  linesRead : Nat
  filesRead : Nat
  isTruncated : Bool
  truncateMsg : String
  deriving Repr

/-- `NewSafeDiffProcessor` (memory.go lines 163-169). -/
def NewSafeDiffProcessor (memConfig : MemoryConfig) : SafeDiffProcessor :=
  { memConfig := memConfig, buffer := [], lineBuffer := [], bytesRead := 0,
    linesRead := 0, filesRead := 0, isTruncated := false, truncateMsg := "" }

/-- The size-exceeded reason: `fmt.Sprintf("Diff truncated at %dMB limit", ...)`. -/
def sizeMsg (cfg : MemoryConfig) : String :=
  "Diff truncated at " ++ toString cfg.MaxDiffSizeMB ++ "MB limit"

/-- The file-count-exceeded reason:
`fmt.Sprintf("Truncated at %d files limit", ...)`. -/
def fileMsg (cfg : MemoryConfig) : String :=
  "Truncated at " ++ toString cfg.MaxFileCount ++ " files limit"

/-- The body of memory.go lines 203-212: truncate the completed line held in
`lineBuffer`, append it plus a newline to the output buffer, bump `linesRead`
and reset the line buffer.  `none` models the `truncateLine` slice panic. -/
def writeLine (p : SafeDiffProcessor) : Option SafeDiffProcessor :=
  match truncateLine p.lineBuffer p.memConfig.MaxLineLength with
  | none => none
  | some tl =>
    some { p with buffer := p.buffer ++ tl ++ ['\n'],
                  linesRead := p.linesRead + 1,
                  lineBuffer := [] }

/-- The byte loop of `ProcessChunk` (memory.go lines 187-216).  On a newline
the completed line is inspected: a `"diff --git"` header bumps `filesRead`
and, past the ceiling, trips the terminal flag and returns immediately
(note: without clearing `lineBuffer` and discarding the rest of the chunk);
otherwise the line is truncated and emitted.  Other bytes accumulate in
`lineBuffer`. -/
def processBytes (p : SafeDiffProcessor) : List Char → Option SafeDiffProcessor
  | [] => some p
  | b :: rest =>
    if b = '\n' then
      if isDiffHeader p.lineBuffer then
        if p.memConfig.MaxFileCount < p.filesRead + 1 then
          some { p with filesRead := p.filesRead + 1,
                        isTruncated := true,
                        truncateMsg := fileMsg p.memConfig }
        else
          match writeLine { p with filesRead := p.filesRead + 1 } with
          | none => none
          | some q => processBytes q rest
      else
        match writeLine p with
        | none => none
        | some q => processBytes q rest
    else
      processBytes { p with lineBuffer := p.lineBuffer ++ [b] } rest

/-- `SafeDiffProcessor.ProcessChunk` (memory.go lines 172-219): a no-op once
truncated; trips the size ceiling before reading any byte of the chunk;
otherwise counts the whole chunk into `bytesRead` and runs the byte loop. -/
def ProcessChunk (p : SafeDiffProcessor) (chunk : List Char) : Option SafeDiffProcessor :=
  if p.isTruncated then
    some p
  else if maxBytes p.memConfig < p.bytesRead + chunk.length then
    some { p with isTruncated := true, truncateMsg := sizeMsg p.memConfig }
  else
    processBytes { p with bytesRead := p.bytesRead + chunk.length } chunk

/-- `TruncatedDiff` (memory.go lines 36-43). -/
structure TruncatedDiff where
  Content : List Char
  IsTruncated : Bool
  TotalSizeKB : Nat
  FileCount : Nat
  TruncatedAt : String
  WarningReason : String
  deriving Repr

/-- `SafeDiffProcessor.GetResult` (memory.go lines 222-238): flush the
trailing partial line through the truncation rule, then package the result. -/
def GetResult (p : SafeDiffProcessor) : Option TruncatedDiff :=
  let flushed :=
    if p.lineBuffer.length ≠ 0 then
      match truncateLine p.lineBuffer p.memConfig.MaxLineLength with
      | none => none
      | some tl => some (p.buffer ++ tl ++ ['\n'])
    else
      some p.buffer
  match flushed with
  | none => none
  | some content =>
    some { Content := content, IsTruncated := p.isTruncated,
           TotalSizeKB := p.bytesRead / 1024, FileCount := p.filesRead,
           TruncatedAt := p.truncateMsg, WarningReason := p.truncateMsg }

/-- Feed a sequence of chunks in order (the `streamCommand` read loop feeding
`processor.ProcessChunk`, memory.go lines 121-137). -/
def processChunks (p : SafeDiffProcessor) : List (List Char) → Option SafeDiffProcessor
  | [] => some p
  | c :: cs =>
    match ProcessChunk p c with
    | none => none
    | some q => processChunks q cs

/-- Whole pipeline: fresh processor, all chunks, then `GetResult`. -/
def runProcessor (cfg : MemoryConfig) (chunks : List (List Char)) : Option TruncatedDiff :=
  match processChunks (NewSafeDiffProcessor cfg) chunks with
  | none => none
  | some p => GetResult p

/-! ## Structural lemmas about the line decomposition -/

theorem mem_splitLines_no_nl {s ℓ : List Char} (h : ℓ ∈ splitLines s) : '\n' ∉ ℓ := by
  induction s generalizing ℓ with
  | nil =>
    simp only [splitLines, List.mem_singleton] at h
    subst h; simp
  | cons b rest ih =>
    by_cases hb : b = '\n'
    · simp only [splitLines, if_pos hb, List.mem_cons] at h
      rcases h with h | h
      · subst h; simp
      · exact ih h
    · simp only [splitLines, if_neg hb] at h
      cases hsp : splitLines rest with
      | nil => exact absurd hsp (splitLines_ne_nil rest)
      | cons l ls =>
        rw [hsp] at h
        simp only [List.mem_cons] at h
        rcases h with h | h
        · subst h
          intro hmem
          rcases List.mem_cons.mp hmem with h1 | h1
          · exact hb h1.symm
          · exact ih (hsp ▸ List.mem_cons_self l ls) h1
        · exact ih (hsp ▸ List.mem_cons_of_mem l h)

theorem lastLine_mem (s : List Char) : lastLine s ∈ splitLines s := by
  unfold lastLine
  have hne := splitLines_ne_nil s
  cases hsp : splitLines s with
  | nil => exact absurd hsp hne
  | cons l ls =>
    clear hne hsp
    induction ls generalizing l with
    | nil => simp [List.getLastD]
    | cons x xs ih =>
      rw [List.getLastD_cons]
      exact List.mem_cons_of_mem l (ih x)

theorem lastLine_no_nl (s : List Char) : '\n' ∉ lastLine s :=
  mem_splitLines_no_nl (lastLine_mem s)

theorem mem_terminatedLines_mem {s ℓ : List Char} (h : ℓ ∈ terminatedLines s) :
    ℓ ∈ splitLines s :=
  List.dropLast_subset _ h

/-- The lines of a stream with a single `'\n'` between consecutive ones
(no trailing separator). -/
def intercalateNL : List (List Char) → List Char
  | [] => []
  | [x] => x
  | x :: xs => x ++ '\n' :: intercalateNL xs

theorem intercalateNL_splitLines (s : List Char) :
    intercalateNL (splitLines s) = s := by
  induction s with
  | nil => rfl
  | cons b rest ih =>
    by_cases hb : b = '\n'
    · subst hb
      simp only [splitLines, if_true]
      cases hsp : splitLines rest with
      | nil => exact absurd hsp (splitLines_ne_nil rest)
      | cons l ls =>
        rw [hsp] at ih
        simpa [intercalateNL] using ih
    · simp only [splitLines, if_neg hb]
      cases hsp : splitLines rest with
      | nil => exact absurd hsp (splitLines_ne_nil rest)
      | cons l ls =>
        rw [hsp] at ih
        cases ls with
        | nil =>
          simp only [intercalateNL] at ih ⊢
          rw [ih]
        | cons y ys =>
          simp only [intercalateNL, List.cons_append] at ih ⊢
          rw [ih]

theorem joinLines_dropLast_getLastD (x : List Char) (L : List (List Char)) :
    joinLines ((x :: L).dropLast) ++ (x :: L).getLastD [] = intercalateNL (x :: L) := by
  induction L generalizing x with
  | nil => simp [joinLines, intercalateNL, List.getLastD]
  | cons y ys ih =>
    have hdrop : (x :: y :: ys).dropLast = x :: (y :: ys).dropLast := rfl
    have hlast : (x :: y :: ys).getLastD [] = (y :: ys).getLastD [] :=
      (List.getLastD_cons [] x (y :: ys)).trans
        ((List.getLastD_cons x y ys).trans (List.getLastD_cons [] y ys).symm)
    rw [hdrop, hlast]
    simp only [joinLines, List.foldr_cons, intercalateNL, List.append_assoc,
      List.cons_append]
    have := ih y
    simp only [joinLines] at this
    rw [this]

/-- Reassembling the line decomposition gives back the stream. -/
theorem joinLines_terminated_lastLine (s : List Char) :
    joinLines (terminatedLines s) ++ lastLine s = s := by
  unfold terminatedLines lastLine
  cases hsp : splitLines s with
  | nil => exact absurd hsp (splitLines_ne_nil s)
  | cons l ls =>
    rw [joinLines_dropLast_getLastD]
    rw [← hsp, intercalateNL_splitLines]

theorem splitLines_line_append {l : List Char} (h : '\n' ∉ l) (u : List Char) :
    splitLines (l ++ '\n' :: u) = l :: splitLines u := by
  induction l with
  | nil => simp [splitLines]
  | cons b l2 ih =>
    simp only [List.mem_cons, not_or] at h
    have hb : b ≠ '\n' := fun hc => h.1 hc.symm
    simp only [List.cons_append, splitLines, if_neg hb, List.append_eq, ih h.2]

theorem splitLines_joinLines_append (ls : List (List Char))
    (h : ∀ l ∈ ls, '\n' ∉ l) (u : List Char) :
    splitLines (joinLines ls ++ u) = ls ++ splitLines u := by
  induction ls with
  | nil => simp [joinLines]
  | cons l ls2 ih =>
    have hl : '\n' ∉ l := h l (List.mem_cons_self l ls2)
    have hrest : ∀ m ∈ ls2, '\n' ∉ m := fun m hm => h m (List.mem_cons_of_mem l hm)
    have hgoal : joinLines (l :: ls2) = l ++ '\n' :: joinLines ls2 := rfl
    rw [hgoal, List.append_assoc, List.cons_append, splitLines_line_append hl,
      ih hrest, List.cons_append]

/-! ## Basic dynamics of the byte loop -/

theorem writeLine_fields {p q : SafeDiffProcessor} (h : writeLine p = some q) :
    q.memConfig = p.memConfig ∧ q.bytesRead = p.bytesRead ∧
    q.filesRead = p.filesRead ∧ q.isTruncated = p.isTruncated ∧
    q.truncateMsg = p.truncateMsg ∧ q.lineBuffer = [] := by
  unfold writeLine at h
  cases htr : truncateLine p.lineBuffer p.memConfig.MaxLineLength with
  | none => rw [htr] at h; exact absurd h (by simp)
  | some tl =>
    rw [htr] at h
    simp only [Option.some.injEq] at h
    subst h
    exact ⟨rfl, rfl, rfl, rfl, rfl, rfl⟩

/-- A newline-free segment only accumulates into the line buffer. -/
theorem processBytes_accum {t : List Char} (h : '\n' ∉ t) :
    ∀ (p : SafeDiffProcessor) (rest : List Char),
      processBytes p (t ++ rest) =
        processBytes { p with lineBuffer := p.lineBuffer ++ t } rest := by
  induction t with
  | nil =>
    intro p rest
    simp
  | cons b t2 ih =>
    intro p rest
    simp only [List.mem_cons, not_or] at h
    have hb : b ≠ '\n' := fun hc => h.1 hc.symm
    simp only [List.cons_append, processBytes, if_neg hb, List.append_eq]
    rw [ih h.2]
    simp [List.append_assoc]

theorem processBytes_pres {s : List Char} :
    ∀ {p q : SafeDiffProcessor}, processBytes p s = some q →
      q.memConfig = p.memConfig ∧ q.bytesRead = p.bytesRead := by
  induction s with
  | nil =>
    intro p q h
    simp only [processBytes, Option.some.injEq] at h
    subst h; exact ⟨rfl, rfl⟩
  | cons b rest ih =>
    intro p q h
    by_cases hb : b = '\n'
    · simp only [processBytes, if_pos hb] at h
      by_cases hdr : isDiffHeader p.lineBuffer
      · simp only [hdr, if_true] at h
        by_cases hf : p.memConfig.MaxFileCount < p.filesRead + 1
        · simp only [if_pos hf, Option.some.injEq] at h
          subst h; exact ⟨rfl, rfl⟩
        · simp only [if_neg hf] at h
          cases hw : writeLine { p with filesRead := p.filesRead + 1 } with
          | none => rw [hw] at h; exact absurd h (by simp)
          | some q1 =>
            rw [hw] at h
            have hfld := writeLine_fields hw
            have := ih h
            exact ⟨this.1.trans hfld.1, this.2.trans hfld.2.1⟩
      · simp only [hdr, if_false] at h
        cases hw : writeLine p with
        | none => rw [hw] at h; exact absurd h (by simp)
        | some q1 =>
          rw [hw] at h
          have hfld := writeLine_fields hw
          have := ih h
          exact ⟨this.1.trans hfld.1, this.2.trans hfld.2.1⟩
    · simp only [processBytes, if_neg hb] at h
      have h2 := ih h
      exact h2

/-- Equality of all processor fields except `bytesRead` (which is the only
field whose evolution depends on the chunking of the stream). -/
def coreEq (p q : SafeDiffProcessor) : Prop :=
  p.memConfig = q.memConfig ∧ p.buffer = q.buffer ∧ p.lineBuffer = q.lineBuffer ∧
  p.linesRead = q.linesRead ∧ p.filesRead = q.filesRead ∧
  p.isTruncated = q.isTruncated ∧ p.truncateMsg = q.truncateMsg

def optionCoreEq : Option SafeDiffProcessor → Option SafeDiffProcessor → Prop
  | none, none => True
  | some p, some q => coreEq p q
  | _, _ => False

theorem coreEq_refl (p : SafeDiffProcessor) : coreEq p p :=
  ⟨rfl, rfl, rfl, rfl, rfl, rfl, rfl⟩

theorem coreEq_trans {p q r : SafeDiffProcessor} (h1 : coreEq p q) (h2 : coreEq q r) :
    coreEq p r :=
  ⟨h1.1.trans h2.1, h1.2.1.trans h2.2.1, h1.2.2.1.trans h2.2.2.1,
   h1.2.2.2.1.trans h2.2.2.2.1, h1.2.2.2.2.1.trans h2.2.2.2.2.1,
   h1.2.2.2.2.2.1.trans h2.2.2.2.2.2.1, h1.2.2.2.2.2.2.trans h2.2.2.2.2.2.2⟩

theorem writeLine_coreEq {p p2 : SafeDiffProcessor} (h : coreEq p p2) :
    optionCoreEq (writeLine p) (writeLine p2) := by
  unfold writeLine
  have he : truncateLine p.lineBuffer p.memConfig.MaxLineLength =
      truncateLine p2.lineBuffer p2.memConfig.MaxLineLength := by
    rw [h.2.2.1, h.1]
  rw [he]
  cases truncateLine p2.lineBuffer p2.memConfig.MaxLineLength with
  | none => exact trivial
  | some tl =>
    exact ⟨h.1, by simp [h.2.1], rfl, by simp [h.2.2.2.1], h.2.2.2.2.1,
      h.2.2.2.2.2.1, h.2.2.2.2.2.2⟩

/-- The byte loop only reads fields covered by `coreEq`; starting states that
agree on those fields run in lock-step. -/
theorem processBytes_coreEq (s : List Char) :
    ∀ {p p2 : SafeDiffProcessor}, coreEq p p2 →
      optionCoreEq (processBytes p s) (processBytes p2 s) := by
  induction s with
  | nil => intro p p2 h; exact h
  | cons b rest ih =>
    intro p p2 h
    by_cases hb : b = '\n'
    · have hdr2 : isDiffHeader p.lineBuffer = isDiffHeader p2.lineBuffer := by
        rw [h.2.2.1]
      have hcfg : p.memConfig = p2.memConfig := h.1
      have hfr : p.filesRead = p2.filesRead := h.2.2.2.2.1
      by_cases hdr : isDiffHeader p.lineBuffer
      · have hdrB : isDiffHeader p2.lineBuffer := by rw [← hdr2]; exact hdr
        by_cases hf : p.memConfig.MaxFileCount < p.filesRead + 1
        · have hfB : p2.memConfig.MaxFileCount < p2.filesRead + 1 := by
            rw [← hcfg, ← hfr]; exact hf
          simp only [processBytes, if_pos hb, hdr, hdrB, if_true, if_pos hf, if_pos hfB]
          exact ⟨h.1, h.2.1, h.2.2.1, h.2.2.2.1, by simp [hfr], rfl, by rw [hcfg]⟩
        · have hfB : ¬p2.memConfig.MaxFileCount < p2.filesRead + 1 := by
            rw [← hcfg, ← hfr]; exact hf
          simp only [processBytes, if_pos hb, hdr, hdrB, if_true, if_neg hf, if_neg hfB]
          have hup : coreEq { p with filesRead := p.filesRead + 1 }
              { p2 with filesRead := p2.filesRead + 1 } :=
            ⟨h.1, h.2.1, h.2.2.1, h.2.2.2.1, by simp [hfr], h.2.2.2.2.2.1,
             h.2.2.2.2.2.2⟩
          have hwl := writeLine_coreEq hup
          cases hw1 : writeLine { p with filesRead := p.filesRead + 1 } with
          | none =>
            cases hw2 : writeLine { p2 with filesRead := p2.filesRead + 1 } with
            | none => exact trivial
            | some q2 => rw [hw1, hw2] at hwl; exact absurd hwl (by simp [optionCoreEq])
          | some q1 =>
            cases hw2 : writeLine { p2 with filesRead := p2.filesRead + 1 } with
            | none => rw [hw1, hw2] at hwl; exact absurd hwl (by simp [optionCoreEq])
            | some q2 =>
              rw [hw1, hw2] at hwl
              exact ih hwl
      · have hdrB : ¬isDiffHeader p2.lineBuffer := by rw [← hdr2]; exact hdr
        simp only [processBytes, if_pos hb, hdr, hdrB, if_false]
        have hwl := writeLine_coreEq h
        cases hw1 : writeLine p with
        | none =>
          cases hw2 : writeLine p2 with
          | none => exact trivial
          | some q2 => rw [hw1, hw2] at hwl; exact absurd hwl (by simp [optionCoreEq])
        | some q1 =>
          cases hw2 : writeLine p2 with
          | none => rw [hw1, hw2] at hwl; exact absurd hwl (by simp [optionCoreEq])
          | some q2 =>
            rw [hw1, hw2] at hwl
            exact ih hwl
    · simp only [processBytes, if_neg hb]
      exact ih ⟨h.1, h.2.1, by simp [h.2.2.1], h.2.2.2.1, h.2.2.2.2.1,
        h.2.2.2.2.2.1, h.2.2.2.2.2.2⟩

theorem optionCoreEq_trans {a b c : Option SafeDiffProcessor}
    (h1 : optionCoreEq a b) (h2 : optionCoreEq b c) : optionCoreEq a c := by
  cases a with
  | none =>
    cases b with
    | none => cases c with
      | none => exact trivial
      | some r => exact absurd h2 (by simp [optionCoreEq])
    | some q => exact absurd h1 (by simp [optionCoreEq])
  | some p =>
    cases b with
    | none => exact absurd h1 (by simp [optionCoreEq])
    | some q =>
      cases c with
      | none => exact absurd h2 (by simp [optionCoreEq])
      | some r => exact coreEq_trans h1 h2

/-- An early trip inside `s` makes the remainder of the byte list irrelevant:
processing `s ++ t` either stops at the same tripped state, or continues
into `t` from the state reached after `s`. -/
theorem processBytes_append (s t : List Char) :
    ∀ {p : SafeDiffProcessor}, p.isTruncated = false →
      processBytes p (s ++ t) =
        match processBytes p s with
        | none => none
        | some q => if q.isTruncated then some q else processBytes q t := by
  induction s with
  | nil =>
    intro p htr
    simp [processBytes, htr]
  | cons b s2 ih =>
    intro p htr
    by_cases hb : b = '\n'
    · by_cases hdr : isDiffHeader p.lineBuffer
      · by_cases hf : p.memConfig.MaxFileCount < p.filesRead + 1
        · simp [List.cons_append, processBytes, if_pos hb, hdr, hf]
        · simp only [List.cons_append, processBytes, if_pos hb, hdr, if_true,
            if_neg hf]
          cases hw : writeLine { p with filesRead := p.filesRead + 1 } with
          | none => simp
          | some q1 =>
            have hq1 : q1.isTruncated = false :=
              (writeLine_fields hw).2.2.2.1.trans htr
            simp only
            exact ih hq1
      · simp only [List.cons_append, processBytes, if_pos hb, hdr, if_false]
        cases hw : writeLine p with
        | none => simp
        | some q1 =>
          have hq1 : q1.isTruncated = false :=
            (writeLine_fields hw).2.2.2.1.trans htr
          simp only
          exact ih hq1
    · simp only [List.cons_append, processBytes, if_neg hb]
      exact ih htr

theorem ProcessChunk_truncated {p : SafeDiffProcessor} (h : p.isTruncated = true)
    (c : List Char) : ProcessChunk p c = some p := by
  simp [ProcessChunk, h]

theorem processChunks_truncated {p : SafeDiffProcessor} (h : p.isTruncated = true) :
    ∀ (cs : List (List Char)), processChunks p cs = some p := by
  intro cs
  induction cs with
  | nil => rfl
  | cons c cs2 ih =>
    simp only [processChunks, ProcessChunk_truncated h c]
    exact ih

/-- Chunk fusion: as long as the size ceiling is never hit, feeding the
stream in chunks and feeding it as one flat byte list produce the same state
up to `bytesRead`. -/
theorem processChunks_fusion (chunks : List (List Char)) :
    ∀ {p : SafeDiffProcessor}, p.isTruncated = false →
      p.bytesRead + (chunks.flatten).length ≤ maxBytes p.memConfig →
      optionCoreEq (processChunks p chunks) (processBytes p chunks.flatten) := by
  induction chunks with
  | nil =>
    intro p htr hsz
    exact coreEq_refl p
  | cons c cs ih =>
    intro p htr hsz
    have hlen : c.length + (cs.flatten).length = ((c :: cs).flatten).length := by
      simp
    have hsz1 : ¬ maxBytes p.memConfig < p.bytesRead + c.length := by
      omega
    have hpc : ProcessChunk p c =
        processBytes { p with bytesRead := p.bytesRead + c.length } c := by
      simp [ProcessChunk, htr, hsz1]
    have hcore : coreEq { p with bytesRead := p.bytesRead + c.length } p :=
      ⟨rfl, rfl, rfl, rfl, rfl, rfl, rfl⟩
    have hcongr := processBytes_coreEq c hcore
    have happ := processBytes_append c cs.flatten htr
    have hjoin : (c :: cs).flatten = c ++ cs.flatten := by simp
    cases h1 : processBytes { p with bytesRead := p.bytesRead + c.length } c with
    | none =>
      cases h0 : processBytes p c with
      | some q0 => rw [h1, h0] at hcongr; exact absurd hcongr (by simp [optionCoreEq])
      | none =>
        rw [h0] at happ
        simp only [processChunks, hpc, h1, hjoin, happ]
        exact trivial
    | some q1 =>
      cases h0 : processBytes p c with
      | none => rw [h1, h0] at hcongr; exact absurd hcongr (by simp [optionCoreEq])
      | some q0 =>
        rw [h1, h0] at hcongr
        rw [h0] at happ
        by_cases hq : q1.isTruncated
        · have hq0 : q0.isTruncated = true := hcongr.2.2.2.2.2.1.symm.trans hq
          simp only [processChunks, hpc, h1, hjoin, happ, hq0, if_true]
          rw [processChunks_truncated hq cs]
          exact hcongr
        · have hq0 : q0.isTruncated = false := by
            rw [← hcongr.2.2.2.2.2.1]; exact Bool.not_eq_true q1.isTruncated ▸ hq
          have hpres := processBytes_pres h1
          have hq1tr : q1.isTruncated = false := by
            exact Bool.not_eq_true q1.isTruncated ▸ hq
          have hszq : q1.bytesRead + (cs.flatten).length ≤ maxBytes q1.memConfig := by
            rw [hpres.1, hpres.2]
            simp only []
            omega
          have hih := ih hq1tr hszq
          have hcongr2 := processBytes_coreEq cs.flatten hcongr
          simp only [processChunks, hpc, h1, hjoin, happ, hq0, if_false]
          exact optionCoreEq_trans hih hcongr2

/-- If nothing tripped, `bytesRead` counts exactly the bytes fed. -/
theorem processChunks_bytes (chunks : List (List Char)) :
    ∀ {p q : SafeDiffProcessor}, p.isTruncated = false →
      processChunks p chunks = some q → q.isTruncated = false →
      q.bytesRead = p.bytesRead + (chunks.flatten).length ∧ q.memConfig = p.memConfig := by
  induction chunks with
  | nil =>
    intro p q htr h hq
    simp only [processChunks, Option.some.injEq] at h
    subst h
    simp
  | cons c cs ih =>
    intro p q htr h hq
    by_cases hsz : maxBytes p.memConfig < p.bytesRead + c.length
    · have htrip : ProcessChunk p c =
          some { p with isTruncated := true, truncateMsg := sizeMsg p.memConfig } := by
        simp [ProcessChunk, htr, hsz]
      simp only [processChunks, htrip] at h
      rw [processChunks_truncated rfl cs] at h
      simp only [Option.some.injEq] at h
      subst h
      exact absurd hq (by simp)
    · have hpc : ProcessChunk p c =
          processBytes { p with bytesRead := p.bytesRead + c.length } c := by
        simp [ProcessChunk, htr, hsz]
      simp only [processChunks, hpc] at h
      cases h1 : processBytes { p with bytesRead := p.bytesRead + c.length } c with
      | none => rw [h1] at h; exact absurd h (by simp)
      | some q1 =>
        rw [h1] at h
        change processChunks q1 cs = some q at h
        have hpres := processBytes_pres h1
        by_cases hq1 : q1.isTruncated
        · rw [processChunks_truncated hq1 cs] at h
          simp only [Option.some.injEq] at h
          subst h
          exact absurd hq (by simp [hq1])
        · have hq1f : q1.isTruncated = false := by
            exact Bool.not_eq_true q1.isTruncated ▸ hq1
          have := ih hq1f h hq
          refine ⟨?_, ?_⟩
          · rw [this.1, hpres.2]
            simp only [List.flatten_cons, List.length_append]
            omega
          · rw [this.2, hpres.1]

/-- Clean run of the byte loop: no ceiling trips, every line within the line
ceiling.  The whole stream `joinLines ls ++ pl` (terminated lines `ls`,
trailing partial line `pl`) is emitted verbatim; the partial line stays in
the line buffer. -/
theorem processBytes_clean (ls : List (List Char)) :
    ∀ (pl : List Char) (p : SafeDiffProcessor),
      p.lineBuffer = [] → p.isTruncated = false →
      (∀ l ∈ ls, '\n' ∉ l) → '\n' ∉ pl →
      (∀ l ∈ ls, l.length ≤ p.memConfig.MaxLineLength) →
      p.filesRead + (ls.filter isDiffHeader).length ≤ p.memConfig.MaxFileCount →
      processBytes p (joinLines ls ++ pl) = some
        { p with buffer := p.buffer ++ joinLines ls,
                 lineBuffer := pl,
                 linesRead := p.linesRead + ls.length,
                 filesRead := p.filesRead + (ls.filter isDiffHeader).length } := by
  induction ls with
  | nil =>
    intro pl p hlb htr hnl hpl hlen hfc
    have hacc := processBytes_accum hpl p []
    rw [List.append_nil] at hacc
    have hjl : joinLines ([] : List (List Char)) ++ pl = pl := by simp [joinLines]
    rw [hjl, hacc]
    simp only [processBytes, Option.some.injEq]
    rw [hlb]
    simp [joinLines]
  | cons l ls2 ih =>
    intro pl p hlb htr hnl hpl hlen hfc
    have hnl_l : '\n' ∉ l := hnl l (List.mem_cons_self l ls2)
    have hnl2 : ∀ m ∈ ls2, '\n' ∉ m := fun m hm => hnl m (List.mem_cons_of_mem l hm)
    have hlen_l : l.length ≤ p.memConfig.MaxLineLength := hlen l (List.mem_cons_self l ls2)
    have hlen2 : ∀ m ∈ ls2, m.length ≤ p.memConfig.MaxLineLength :=
      fun m hm => hlen m (List.mem_cons_of_mem l hm)
    have hstream : joinLines (l :: ls2) ++ pl = l ++ '\n' :: (joinLines ls2 ++ pl) := by
      show (l ++ '\n' :: joinLines ls2) ++ pl = l ++ '\n' :: (joinLines ls2 ++ pl)
      simp [List.append_assoc]
    rw [hstream, processBytes_accum hnl_l p, hlb]
    have htl : truncateLine l p.memConfig.MaxLineLength = some l := by
      unfold truncateLine
      rw [if_pos hlen_l]
    have hnlc : ('\n' : Char) = '\n' := rfl
    by_cases hdr : isDiffHeader l
    · have hcnt : (List.filter isDiffHeader (l :: ls2)).length =
          (List.filter isDiffHeader ls2).length + 1 := by
        simp [List.filter_cons, hdr]
      have hf : ¬ p.memConfig.MaxFileCount < p.filesRead + 1 := by
        rw [hcnt] at hfc
        omega
      have hwl : writeLine { p with lineBuffer := l, filesRead := p.filesRead + 1 } =
          some { p with buffer := p.buffer ++ l ++ ['\n'],
                        linesRead := p.linesRead + 1,
                        lineBuffer := [],
                        filesRead := p.filesRead + 1 } := by
        unfold writeLine
        simp only [List.nil_append, htl]
      simp only [processBytes, if_pos hnlc, List.nil_append, hdr, if_true, if_neg hf, hwl]
      have hfc2 : p.filesRead + 1 + (List.filter isDiffHeader ls2).length ≤
          p.memConfig.MaxFileCount := by
        rw [hcnt] at hfc
        omega
      rw [ih pl { p with buffer := p.buffer ++ l ++ ['\n'],
                         linesRead := p.linesRead + 1,
                         lineBuffer := [],
                         filesRead := p.filesRead + 1 } rfl htr hnl2 hpl hlen2 hfc2]
      simp only [Option.some.injEq, SafeDiffProcessor.mk.injEq, true_and, and_true]
      refine ⟨?_, ?_, ?_⟩
      · show p.buffer ++ l ++ ['\n'] ++ joinLines ls2 =
          p.buffer ++ (l ++ '\n' :: joinLines ls2)
        simp [List.append_assoc]
      · show p.linesRead + 1 + ls2.length = p.linesRead + (l :: ls2).length
        simp only [List.length_cons]
        omega
      · show p.filesRead + 1 + (List.filter isDiffHeader ls2).length =
          p.filesRead + (List.filter isDiffHeader (l :: ls2)).length
        rw [hcnt]
        omega
    · have hcnt : (List.filter isDiffHeader (l :: ls2)).length =
          (List.filter isDiffHeader ls2).length := by
        simp [List.filter_cons, hdr]
      have hwl : writeLine { p with lineBuffer := l } =
          some { p with buffer := p.buffer ++ l ++ ['\n'],
                        linesRead := p.linesRead + 1,
                        lineBuffer := [] } := by
        unfold writeLine
        simp only [List.nil_append, htl]
      have hdrB : isDiffHeader l = false :=
        Bool.not_eq_true (isDiffHeader l) ▸ hdr
      simp only [processBytes, if_pos hnlc, List.nil_append, hdrB, Bool.false_eq_true,
        if_false, hwl]
      have hfc2 : p.filesRead + (List.filter isDiffHeader ls2).length ≤
          p.memConfig.MaxFileCount := by
        rw [hcnt] at hfc
        omega
      rw [ih pl { p with buffer := p.buffer ++ l ++ ['\n'],
                         linesRead := p.linesRead + 1,
                         lineBuffer := [] } rfl htr hnl2 hpl hlen2 hfc2]
      simp only [Option.some.injEq, SafeDiffProcessor.mk.injEq, true_and, and_true,
        hcnt, List.length_cons, joinLines, List.foldr_cons, List.append_assoc,
        List.cons_append, List.singleton_append, if_true, List.nil_append]
      omega

/-- File-ceiling trip: once the running file counter would pass the ceiling
on a `"diff --git"` header line, the processor stops inside the byte loop.
`pre` are the lines emitted before the fatal header; the fatal header line
itself is left sitting in `lineBuffer` (it was completed but never cleared),
and everything after it is discarded. -/
theorem processBytes_fileTrip (ls : List (List Char)) :
    ∀ (pl : List Char) (p : SafeDiffProcessor),
      p.lineBuffer = [] → p.isTruncated = false →
      (∀ l ∈ ls, '\n' ∉ l) →
      (∀ l ∈ ls, l.length ≤ p.memConfig.MaxLineLength) →
      p.filesRead ≤ p.memConfig.MaxFileCount →
      p.memConfig.MaxFileCount < p.filesRead + (ls.filter isDiffHeader).length →
      ∃ pre fatal post, ls = pre ++ fatal :: post ∧ isDiffHeader fatal = true ∧
        p.filesRead + (pre.filter isDiffHeader).length = p.memConfig.MaxFileCount ∧
        processBytes p (joinLines ls ++ pl) = some
          { p with buffer := p.buffer ++ joinLines pre,
                   lineBuffer := fatal,
                   linesRead := p.linesRead + pre.length,
                   filesRead := p.memConfig.MaxFileCount + 1,
                   isTruncated := true,
                   truncateMsg := fileMsg p.memConfig } := by
  induction ls with
  | nil =>
    intro pl p hlb htr hnl hlen hle hover
    exfalso
    simp only [List.filter_nil, List.length_nil] at hover
    omega
  | cons l ls2 ih =>
    intro pl p hlb htr hnl hlen hle hover
    have hnl_l : '\n' ∉ l := hnl l (List.mem_cons_self l ls2)
    have hnl2 : ∀ m ∈ ls2, '\n' ∉ m := fun m hm => hnl m (List.mem_cons_of_mem l hm)
    have hlen_l : l.length ≤ p.memConfig.MaxLineLength := hlen l (List.mem_cons_self l ls2)
    have hlen2 : ∀ m ∈ ls2, m.length ≤ p.memConfig.MaxLineLength :=
      fun m hm => hlen m (List.mem_cons_of_mem l hm)
    have hstream : joinLines (l :: ls2) ++ pl = l ++ '\n' :: (joinLines ls2 ++ pl) := by
      show (l ++ '\n' :: joinLines ls2) ++ pl = l ++ '\n' :: (joinLines ls2 ++ pl)
      simp [List.append_assoc]
    rw [hstream, processBytes_accum hnl_l p, hlb]
    have htl : truncateLine l p.memConfig.MaxLineLength = some l := by
      unfold truncateLine
      rw [if_pos hlen_l]
    have hnlc : ('\n' : Char) = '\n' := rfl
    by_cases hdr : isDiffHeader l
    · have hcnt : (List.filter isDiffHeader (l :: ls2)).length =
          (List.filter isDiffHeader ls2).length + 1 := by
        simp [List.filter_cons, hdr]
      by_cases htrip : p.memConfig.MaxFileCount < p.filesRead + 1
      · have hfr : p.filesRead = p.memConfig.MaxFileCount := by omega
        refine ⟨[], l, ls2, by simp, hdr, by simp [hfr], ?_⟩
        simp only [processBytes, if_pos hnlc, List.nil_append, hdr, if_true,
          if_pos htrip, Option.some.injEq]
        simp only [SafeDiffProcessor.mk.injEq, true_and, and_true, joinLines,
          List.foldr_nil, List.append_nil, List.length_nil, Nat.add_zero]
        omega
      · have hwl : writeLine { p with lineBuffer := l, filesRead := p.filesRead + 1 } =
            some { p with buffer := p.buffer ++ l ++ ['\n'],
                          linesRead := p.linesRead + 1,
                          lineBuffer := [],
                          filesRead := p.filesRead + 1 } := by
          unfold writeLine
          simp only [List.nil_append, htl]
        simp only [processBytes, if_pos hnlc, List.nil_append, hdr, if_true,
          if_neg htrip, hwl]
        have hle2 : p.filesRead + 1 ≤ p.memConfig.MaxFileCount := by omega
        have hover2 : p.memConfig.MaxFileCount <
            p.filesRead + 1 + (List.filter isDiffHeader ls2).length := by
          rw [hcnt] at hover
          omega
        obtain ⟨pre2, fatal, post2, hsplit, hfatal, hcount, hrun⟩ :=
          ih pl { p with buffer := p.buffer ++ l ++ ['\n'],
                         linesRead := p.linesRead + 1,
                         lineBuffer := [],
                         filesRead := p.filesRead + 1 } rfl htr hnl2 hlen2 hle2 hover2
        refine ⟨l :: pre2, fatal, post2, by simp [hsplit], hfatal, ?_, ?_⟩
        · simp only [List.filter_cons, hdr, if_true, List.length_cons]
          simp only [List.filter_cons] at hcount
          omega
        · rw [hrun]
          simp only [if_true, Option.some.injEq, SafeDiffProcessor.mk.injEq, true_and,
            and_true, joinLines, List.foldr_cons, List.append_assoc, List.cons_append,
            List.singleton_append, List.length_cons, List.nil_append]
          omega
    · have hcnt : (List.filter isDiffHeader (l :: ls2)).length =
          (List.filter isDiffHeader ls2).length := by
        simp [List.filter_cons, hdr]
      have hdrB : isDiffHeader l = false :=
        Bool.not_eq_true (isDiffHeader l) ▸ hdr
      have hwl : writeLine { p with lineBuffer := l } =
          some { p with buffer := p.buffer ++ l ++ ['\n'],
                        linesRead := p.linesRead + 1,
                        lineBuffer := [] } := by
        unfold writeLine
        simp only [List.nil_append, htl]
      simp only [processBytes, if_pos hnlc, List.nil_append, hdrB, Bool.false_eq_true,
        if_false, hwl]
      have hover2 : p.memConfig.MaxFileCount <
          p.filesRead + (List.filter isDiffHeader ls2).length := by
        rw [hcnt] at hover
        omega
      obtain ⟨pre2, fatal, post2, hsplit, hfatal, hcount, hrun⟩ :=
        ih pl { p with buffer := p.buffer ++ l ++ ['\n'],
                       linesRead := p.linesRead + 1,
                       lineBuffer := [] } rfl htr hnl2 hlen2 hle hover2
      refine ⟨l :: pre2, fatal, post2, by simp [hsplit], hfatal, ?_, ?_⟩
      · simp only [List.filter_cons, hdrB, Bool.false_eq_true, if_false]
        exact hcount
      · rw [hrun]
        simp only [if_true, Option.some.injEq, SafeDiffProcessor.mk.injEq, true_and,
          and_true, joinLines, List.foldr_cons, List.append_assoc, List.cons_append,
          List.singleton_append, List.length_cons, List.nil_append]
        omega

/-! ## Totality: the only panic source is the truncateLine slice -/

theorem truncateLine_eq_none_iff (line : List Char) (maxLength : Nat) :
    truncateLine line maxLength = none ↔ (maxLength < line.length ∧ maxLength < 3) := by
  unfold truncateLine
  by_cases h1 : line.length ≤ maxLength
  · rw [if_pos h1]
    simp
    omega
  · rw [if_neg h1]
    by_cases h2 : 3 ≤ maxLength
    · rw [if_pos h2]
      simp
      omega
    · rw [if_neg h2]
      simp
      omega

theorem writeLine_isSome {p : SafeDiffProcessor} (h3 : 3 ≤ p.memConfig.MaxLineLength) :
    ∃ q, writeLine p = some q := by
  unfold writeLine
  cases htr : truncateLine p.lineBuffer p.memConfig.MaxLineLength with
  | none =>
    rw [truncateLine_eq_none_iff] at htr
    omega
  | some tl => exact ⟨_, rfl⟩

theorem processBytes_total (s : List Char) :
    ∀ (p : SafeDiffProcessor), 3 ≤ p.memConfig.MaxLineLength →
      ∃ q, processBytes p s = some q := by
  induction s with
  | nil => intro p h3; exact ⟨p, rfl⟩
  | cons b rest ih =>
    intro p h3
    by_cases hb : b = '\n'
    · by_cases hdr : isDiffHeader p.lineBuffer
      · by_cases hf : p.memConfig.MaxFileCount < p.filesRead + 1
        · exact ⟨_, by
            simp only [processBytes, if_pos hb, hdr, if_true, if_pos hf]
            rfl⟩
        · obtain ⟨q1, hw⟩ :=
            @writeLine_isSome { p with filesRead := p.filesRead + 1 } h3
          obtain ⟨q, hq⟩ := ih q1 (by rw [(writeLine_fields hw).1]; exact h3)
          refine ⟨q, ?_⟩
          simp only [processBytes, if_pos hb, hdr, if_true, if_neg hf, hw]
          exact hq
      · obtain ⟨q1, hw⟩ := @writeLine_isSome p h3
        obtain ⟨q, hq⟩ := ih q1 (by rw [(writeLine_fields hw).1]; exact h3)
        refine ⟨q, ?_⟩
        simp only [processBytes, if_pos hb, hdr, if_false, hw]
        exact hq
    · obtain ⟨q, hq⟩ := ih { p with lineBuffer := p.lineBuffer ++ [b] } h3
      refine ⟨q, ?_⟩
      simp only [processBytes, if_neg hb]
      exact hq

theorem GetResult_isSome {p : SafeDiffProcessor} (h3 : 3 ≤ p.memConfig.MaxLineLength) :
    ∃ r, GetResult p = some r := by
  unfold GetResult
  by_cases hl : p.lineBuffer.length ≠ 0
  · rw [if_pos hl]
    cases htr : truncateLine p.lineBuffer p.memConfig.MaxLineLength with
    | none =>
      rw [truncateLine_eq_none_iff] at htr
      omega
    | some tl => exact ⟨_, rfl⟩
  · rw [if_neg hl]
    exact ⟨_, rfl⟩

theorem ProcessChunk_total {p : SafeDiffProcessor} (h3 : 3 ≤ p.memConfig.MaxLineLength)
    (c : List Char) : ∃ q, ProcessChunk p c = some q ∧ q.memConfig = p.memConfig := by
  unfold ProcessChunk
  by_cases htr : p.isTruncated
  · rw [if_pos htr]
    exact ⟨p, rfl, rfl⟩
  · rw [if_neg htr]
    by_cases hsz : maxBytes p.memConfig < p.bytesRead + c.length
    · rw [if_pos hsz]
      exact ⟨_, rfl, rfl⟩
    · rw [if_neg hsz]
      obtain ⟨q, hq⟩ := processBytes_total c { p with bytesRead := p.bytesRead + c.length } h3
      exact ⟨q, hq, (processBytes_pres hq).1⟩

theorem processChunks_total (chunks : List (List Char)) :
    ∀ (p : SafeDiffProcessor), 3 ≤ p.memConfig.MaxLineLength →
      ∃ q, processChunks p chunks = some q ∧ q.memConfig = p.memConfig := by
  induction chunks with
  | nil => intro p h3; exact ⟨p, rfl, rfl⟩
  | cons c cs ih =>
    intro p h3
    obtain ⟨q1, hq1, hm1⟩ := ProcessChunk_total h3 c
    obtain ⟨q, hq, hm⟩ := ih q1 (by rw [hm1]; exact h3)
    refine ⟨q, ?_, hm.trans hm1⟩
    simp only [processChunks, hq1]
    exact hq

theorem runProcessor_isSome (cfg : MemoryConfig) (chunks : List (List Char))
    (h3 : 3 ≤ cfg.MaxLineLength) : ∃ r, runProcessor cfg chunks = some r := by
  obtain ⟨q, hq, hm⟩ := processChunks_total chunks (NewSafeDiffProcessor cfg) h3
  obtain ⟨r, hr⟩ := @GetResult_isSome q (by rw [hm]; exact h3)
  refine ⟨r, ?_⟩
  unfold runProcessor
  rw [hq]
  exact hr

/-! ## Decomposing the line structure of an appended stream -/

theorem splitLines_eq_terminated_append_last (s : List Char) :
    splitLines s = terminatedLines s ++ [lastLine s] := by
  unfold terminatedLines lastLine
  cases hsp : splitLines s with
  | nil => exact absurd hsp (splitLines_ne_nil s)
  | cons l ls =>
    clear hsp
    induction ls generalizing l with
    | nil => simp [List.getLastD]
    | cons y ys ih =>
      have h1 : (l :: y :: ys).dropLast = l :: (y :: ys).dropLast := rfl
      have h2 : (l :: y :: ys).getLastD [] = (y :: ys).getLastD [] :=
        (List.getLastD_cons [] l (y :: ys)).trans
          ((List.getLastD_cons l y ys).trans (List.getLastD_cons [] y ys).symm)
      rw [h1, h2, List.cons_append]
      rw [← ih y]

theorem splitLines_append_decomp (t u : List Char) :
    splitLines (t ++ u) = terminatedLines t ++ splitLines (lastLine t ++ u) := by
  have hnonl : ∀ l ∈ terminatedLines t, '\n' ∉ l :=
    fun l hl => mem_splitLines_no_nl (mem_terminatedLines_mem hl)
  calc splitLines (t ++ u)
      = splitLines ((joinLines (terminatedLines t) ++ lastLine t) ++ u) := by
        rw [joinLines_terminated_lastLine]
    _ = splitLines (joinLines (terminatedLines t) ++ (lastLine t ++ u)) := by
        rw [List.append_assoc]
    _ = terminatedLines t ++ splitLines (lastLine t ++ u) :=
        splitLines_joinLines_append (terminatedLines t) hnonl (lastLine t ++ u)

theorem terminatedLines_append_decomp (t u : List Char) :
    terminatedLines (t ++ u) =
      terminatedLines t ++ terminatedLines (lastLine t ++ u) := by
  show (splitLines (t ++ u)).dropLast = _
  rw [splitLines_append_decomp t u]
  exact List.dropLast_append_of_ne_nil _ (splitLines_ne_nil _)

/-- The byte/marker structure of a list-prefix of the stream: every
terminated header line of the prefix is one of the whole stream. -/
theorem markerCount_prefix_le (t u : List Char) :
    markerCount t ≤ markerCount (t ++ u) := by
  unfold markerCount
  rw [terminatedLines_append_decomp t u, List.filter_append, List.length_append]
  omega

theorem mem_terminatedLines_of_front {t : List Char} (u : List Char)
    {ℓ : List Char} (h : ℓ ∈ terminatedLines t) : ℓ ∈ terminatedLines (t ++ u) := by
  rw [terminatedLines_append_decomp t u]
  exact List.mem_append_left _ h

theorem splitLines_headI_no_nl {x : List Char} (h : '\n' ∉ x) (u : List Char) :
    (splitLines (x ++ u)).headI = x ++ (splitLines u).headI := by
  induction x with
  | nil => simp
  | cons b x2 ih =>
    simp only [List.mem_cons, not_or] at h
    have hb : b ≠ '\n' := fun hc => h.1 hc.symm
    simp only [List.cons_append, splitLines, if_neg hb]
    cases hsp : splitLines (x2 ++ u) with
    | nil => exact absurd hsp (splitLines_ne_nil _)
    | cons l ls =>
      have := ih h.2
      rw [hsp] at this
      simp only [List.headI] at this ⊢
      rw [this]

theorem headI_mem_splitLines (s : List Char) :
    (splitLines s).headI ∈ splitLines s := by
  cases hsp : splitLines s with
  | nil => exact absurd hsp (splitLines_ne_nil s)
  | cons l ls => simp [List.headI]

/-- Line lengths transfer from the whole stream to any list-prefix: every
segment of the prefix is a segment of the whole stream or a prefix of one. -/
theorem splitLines_prefix_length_le {t u : List Char} {L : Nat}
    (h : ∀ m ∈ splitLines (t ++ u), m.length ≤ L) :
    ∀ ℓ ∈ splitLines t, ℓ.length ≤ L := by
  intro ℓ hℓ
  rw [splitLines_eq_terminated_append_last t] at hℓ
  rcases List.mem_append.mp hℓ with hmem | hmem
  · exact h ℓ (mem_terminatedLines_mem (mem_terminatedLines_of_front u hmem))
  · have heq : ℓ = lastLine t := by simpa using hmem
    subst heq
    have hfirst : (splitLines (lastLine t ++ u)).headI =
        lastLine t ++ (splitLines u).headI :=
      splitLines_headI_no_nl (lastLine_no_nl t) u
    have hmem2 : (splitLines (lastLine t ++ u)).headI ∈ splitLines (t ++ u) := by
      rw [splitLines_append_decomp t u]
      exact List.mem_append_right _ (headI_mem_splitLines _)
    have := h _ hmem2
    rw [hfirst] at this
    simp only [List.length_append] at this
    omega

theorem joinLines_append (a b : List (List Char)) :
    joinLines (a ++ b) = joinLines a ++ joinLines b := by
  induction a with
  | nil => simp [joinLines]
  | cons l a2 ih =>
    show l ++ '\n' :: joinLines (a2 ++ b) = (l ++ '\n' :: joinLines a2) ++ joinLines b
    rw [ih]
    simp [List.append_assoc]

theorem terminatedLines_joinLines (L : List (List Char))
    (h : ∀ l ∈ L, '\n' ∉ l) : terminatedLines (joinLines L) = L := by
  show (splitLines (joinLines L)).dropLast = L
  have := splitLines_joinLines_append L h []
  rw [List.append_nil] at this
  rw [this]
  show (L ++ [[]]).dropLast = L
  rw [List.dropLast_concat]

theorem runProcessor_eq {cfg : MemoryConfig} {chunks : List (List Char)}
    {q : SafeDiffProcessor}
    (h : processChunks (NewSafeDiffProcessor cfg) chunks = some q) :
    runProcessor cfg chunks = GetResult q := by
  unfold runProcessor
  rw [h]

/-- C1 (amended): for every chunked stream whose total byte count is within
the size ceiling, whose newline-terminated `"diff --git"` header count is
within the file ceiling, and all of whose lines (including the trailing
partial one) are within the line ceiling, the processor reports
`IsTruncated = false` with an empty warning reason, its byte counter equals
the true total (exposed as `TotalSizeKB = total / 1024`), its file counter
counts exactly the newline-terminated header lines, and the output content
equals the input except that a terminating newline is appended when the
input does not end in one. -/
theorem C1_amended_clean_run (cfg : MemoryConfig) (chunks : List (List Char))
    (hsize : (chunks.flatten).length ≤ maxBytes cfg)
    (hlines : ∀ ℓ ∈ splitLines chunks.flatten, ℓ.length ≤ cfg.MaxLineLength)
    (hfiles : markerCount chunks.flatten ≤ cfg.MaxFileCount) :
    ∃ r, runProcessor cfg chunks = some r ∧
      r.IsTruncated = false ∧ r.WarningReason = "" ∧
      r.TotalSizeKB = (chunks.flatten).length / 1024 ∧
      r.FileCount = markerCount chunks.flatten ∧
      r.Content = chunks.flatten ++
        (if lastLine chunks.flatten = [] then [] else ['\n']) ∧
      ∃ q, processChunks (NewSafeDiffProcessor cfg) chunks = some q ∧
        q.bytesRead = (chunks.flatten).length := by
  have hnl_ls : ∀ l ∈ terminatedLines chunks.flatten, '\n' ∉ l :=
    fun l hl => mem_splitLines_no_nl (mem_terminatedLines_mem hl)
  have hnl_pl : '\n' ∉ lastLine chunks.flatten := lastLine_no_nl chunks.flatten
  have hlen_ls : ∀ l ∈ terminatedLines chunks.flatten, l.length ≤ cfg.MaxLineLength :=
    fun l hl => hlines l (mem_terminatedLines_mem hl)
  have hlen_pl : (lastLine chunks.flatten).length ≤ cfg.MaxLineLength :=
    hlines _ (lastLine_mem chunks.flatten)
  have hfc0 : (0 : Nat) +
      ((terminatedLines chunks.flatten).filter isDiffHeader).length ≤
      cfg.MaxFileCount := by
    unfold markerCount at hfiles
    omega
  have hclean := processBytes_clean (terminatedLines chunks.flatten)
    (lastLine chunks.flatten) (NewSafeDiffProcessor cfg) rfl rfl
    hnl_ls hnl_pl hlen_ls hfc0
  rw [joinLines_terminated_lastLine chunks.flatten] at hclean
  have hsz0 : (NewSafeDiffProcessor cfg).bytesRead + (chunks.flatten).length ≤
      maxBytes (NewSafeDiffProcessor cfg).memConfig := by
    show 0 + (chunks.flatten).length ≤ maxBytes cfg
    omega
  have hfus := @processChunks_fusion chunks (NewSafeDiffProcessor cfg) rfl hsz0
  rw [hclean] at hfus
  cases hpc : processChunks (NewSafeDiffProcessor cfg) chunks with
  | none => rw [hpc] at hfus; exact absurd hfus (by simp [optionCoreEq])
  | some q =>
    rw [hpc] at hfus
    have hcq : coreEq q _ := hfus
    have hbuf : q.buffer = joinLines (terminatedLines chunks.flatten) := by
      have := hcq.2.1
      simpa using this
    have hlbq : q.lineBuffer = lastLine chunks.flatten := by
      simpa using hcq.2.2.1
    have hfrq : q.filesRead =
        ((terminatedLines chunks.flatten).filter isDiffHeader).length := by
      have h := hcq.2.2.2.2.1
      simp only [NewSafeDiffProcessor] at h
      omega
    have htrq : q.isTruncated = false := by
      simpa using hcq.2.2.2.2.2.1
    have hmsg : q.truncateMsg = "" := by
      simpa using hcq.2.2.2.2.2.2
    have hmc : q.memConfig = cfg := by
      simpa using hcq.1
    have hbytes := @processChunks_bytes chunks (NewSafeDiffProcessor cfg) q rfl hpc htrq
    have hbr : q.bytesRead = (chunks.flatten).length := by
      have h := hbytes.1
      simp only [NewSafeDiffProcessor] at h
      omega
    have hrun := runProcessor_eq hpc
    by_cases hple : lastLine chunks.flatten = []
    · have hres : GetResult q = some
          { Content := q.buffer, IsTruncated := q.isTruncated,
            TotalSizeKB := q.bytesRead / 1024, FileCount := q.filesRead,
            TruncatedAt := q.truncateMsg, WarningReason := q.truncateMsg } := by
        unfold GetResult
        rw [hlbq, hple]
        simp
      refine ⟨_, hrun.trans hres, htrq, hmsg, by rw [hbr], by rw [hfrq]; rfl, ?_,
        q, rfl, hbr⟩
      show q.buffer = chunks.flatten ++ _
      rw [if_pos hple, List.append_nil, hbuf]
      have := joinLines_terminated_lastLine chunks.flatten
      rw [hple, List.append_nil] at this
      exact this
    · have htl : truncateLine (lastLine chunks.flatten) cfg.MaxLineLength =
          some (lastLine chunks.flatten) := by
        unfold truncateLine
        rw [if_pos hlen_pl]
      have hres : GetResult q = some
          { Content := q.buffer ++ lastLine chunks.flatten ++ ['\n'],
            IsTruncated := q.isTruncated,
            TotalSizeKB := q.bytesRead / 1024, FileCount := q.filesRead,
            TruncatedAt := q.truncateMsg, WarningReason := q.truncateMsg } := by
        unfold GetResult
        rw [hlbq]
        have hne : (lastLine chunks.flatten).length ≠ 0 := by
          intro hzero
          exact hple (List.length_eq_zero.mp hzero)
        rw [if_pos hne, hmc, htl]
      refine ⟨_, hrun.trans hres, htrq, hmsg, by rw [hbr], by rw [hfrq]; rfl, ?_,
        q, rfl, hbr⟩
      show q.buffer ++ lastLine chunks.flatten ++ ['\n'] = chunks.flatten ++ _
      rw [if_neg hple, hbuf, List.append_assoc, ← List.append_assoc,
        joinLines_terminated_lastLine chunks.flatten]

theorem processChunks_append (a b : List (List Char)) :
    ∀ p, processChunks p (a ++ b) =
      match processChunks p a with
      | none => none
      | some q => processChunks q b := by
  induction a with
  | nil => intro p; rfl
  | cons c a2 ih =>
    intro p
    simp only [List.cons_append, processChunks]
    cases ProcessChunk p c with
    | none => rfl
    | some q => exact ih q

theorem take_succ_eq {α : Type} (l : List α) (k : Nat) (h : k < l.length) :
    l.take (k + 1) = l.take k ++ [l[k]] := by
  have h1 := List.take_add l k 1
  rw [h1, List.drop_eq_getElem_cons h]
  rfl

/-- The processor state after a fully clean (never tripped) chunked run. -/
theorem processChunks_clean_state (cfg : MemoryConfig) (chunks : List (List Char))
    (hsize : (chunks.flatten).length ≤ maxBytes cfg)
    (hlines : ∀ ℓ ∈ splitLines chunks.flatten, ℓ.length ≤ cfg.MaxLineLength)
    (hfiles : markerCount chunks.flatten ≤ cfg.MaxFileCount) :
    ∃ q, processChunks (NewSafeDiffProcessor cfg) chunks = some q ∧
      q.buffer = joinLines (terminatedLines chunks.flatten) ∧
      q.lineBuffer = lastLine chunks.flatten ∧
      q.filesRead = ((terminatedLines chunks.flatten).filter isDiffHeader).length ∧
      q.isTruncated = false ∧ q.truncateMsg = "" ∧ q.memConfig = cfg ∧
      q.bytesRead = (chunks.flatten).length := by
  have hnl_ls : ∀ l ∈ terminatedLines chunks.flatten, '\n' ∉ l :=
    fun l hl => mem_splitLines_no_nl (mem_terminatedLines_mem hl)
  have hnl_pl : '\n' ∉ lastLine chunks.flatten := lastLine_no_nl chunks.flatten
  have hlen_ls : ∀ l ∈ terminatedLines chunks.flatten, l.length ≤ cfg.MaxLineLength :=
    fun l hl => hlines l (mem_terminatedLines_mem hl)
  have hfc0 : (0 : Nat) +
      ((terminatedLines chunks.flatten).filter isDiffHeader).length ≤
      cfg.MaxFileCount := by
    unfold markerCount at hfiles
    omega
  have hclean := processBytes_clean (terminatedLines chunks.flatten)
    (lastLine chunks.flatten) (NewSafeDiffProcessor cfg) rfl rfl
    hnl_ls hnl_pl hlen_ls hfc0
  rw [joinLines_terminated_lastLine chunks.flatten] at hclean
  have hsz0 : (NewSafeDiffProcessor cfg).bytesRead + (chunks.flatten).length ≤
      maxBytes (NewSafeDiffProcessor cfg).memConfig := by
    show 0 + (chunks.flatten).length ≤ maxBytes cfg
    omega
  have hfus := @processChunks_fusion chunks (NewSafeDiffProcessor cfg) rfl hsz0
  rw [hclean] at hfus
  cases hpc : processChunks (NewSafeDiffProcessor cfg) chunks with
  | none => rw [hpc] at hfus; exact absurd hfus (by simp [optionCoreEq])
  | some q =>
    rw [hpc] at hfus
    have hcq : coreEq q _ := hfus
    have htrq : q.isTruncated = false := by simpa using hcq.2.2.2.2.2.1
    have hbytes := @processChunks_bytes chunks (NewSafeDiffProcessor cfg) q rfl hpc htrq
    refine ⟨q, rfl, by simpa using hcq.2.1, by simpa using hcq.2.2.1, ?_, htrq,
      by simpa using hcq.2.2.2.2.2.2, by simpa using hcq.1, ?_⟩
    · have h := hcq.2.2.2.2.1
      simp only [NewSafeDiffProcessor] at h
      omega
    · have h := hbytes.1
      simp only [NewSafeDiffProcessor] at h
      omega

/-- `GetResult` on two states differing only in the truncation flag and
message: contents and counters agree; flag and reason come from each state. -/
theorem GetResult_pair {q qT : SafeDiffProcessor}
    (hbuf : qT.buffer = q.buffer) (hlb : qT.lineBuffer = q.lineBuffer)
    (hmc : qT.memConfig = q.memConfig) (hbys : qT.bytesRead = q.bytesRead)
    (hfr : qT.filesRead = q.filesRead)
    (hlen : q.lineBuffer.length ≤ q.memConfig.MaxLineLength) :
    ∃ r rp, GetResult qT = some r ∧ GetResult q = some rp ∧
      r.Content = rp.Content ∧ r.TotalSizeKB = rp.TotalSizeKB ∧
      r.FileCount = rp.FileCount ∧ r.IsTruncated = qT.isTruncated ∧
      r.WarningReason = qT.truncateMsg ∧ rp.TotalSizeKB = q.bytesRead / 1024 ∧
      rp.IsTruncated = q.isTruncated ∧ rp.WarningReason = q.truncateMsg := by
  by_cases hne : q.lineBuffer.length ≠ 0
  · have htl : truncateLine q.lineBuffer q.memConfig.MaxLineLength =
        some q.lineBuffer := by
      unfold truncateLine
      rw [if_pos hlen]
    have e1 : GetResult qT = some
        { Content := q.buffer ++ q.lineBuffer ++ ['\n'],
          IsTruncated := qT.isTruncated,
          TotalSizeKB := q.bytesRead / 1024, FileCount := q.filesRead,
          TruncatedAt := qT.truncateMsg, WarningReason := qT.truncateMsg } := by
      unfold GetResult
      rw [hlb, hmc, hbuf, hbys, hfr, if_pos hne, htl]
    have e2 : GetResult q = some
        { Content := q.buffer ++ q.lineBuffer ++ ['\n'],
          IsTruncated := q.isTruncated,
          TotalSizeKB := q.bytesRead / 1024, FileCount := q.filesRead,
          TruncatedAt := q.truncateMsg, WarningReason := q.truncateMsg } := by
      unfold GetResult
      rw [if_pos hne, htl]
    exact ⟨_, _, e1, e2, rfl, rfl, rfl, rfl, rfl, rfl, rfl, rfl⟩
  · have e1 : GetResult qT = some
        { Content := q.buffer, IsTruncated := qT.isTruncated,
          TotalSizeKB := q.bytesRead / 1024, FileCount := q.filesRead,
          TruncatedAt := qT.truncateMsg, WarningReason := qT.truncateMsg } := by
      unfold GetResult
      rw [hlb, hbuf, hbys, hfr, if_neg hne]
    have e2 : GetResult q = some
        { Content := q.buffer, IsTruncated := q.isTruncated,
          TotalSizeKB := q.bytesRead / 1024, FileCount := q.filesRead,
          TruncatedAt := q.truncateMsg, WarningReason := q.truncateMsg } := by
      unfold GetResult
      rw [if_neg hne]
    exact ⟨_, _, e1, e2, rfl, rfl, rfl, rfl, rfl, rfl, rfl, rfl⟩

/-- C2 (amended): for every chunked stream whose cumulative byte count
exceeds the size ceiling — and which stays within the file-count ceiling and
the line-length ceiling, so that no other trip can fire first — processing
stops at the last chunk boundary under the ceiling: the result is truncated
with the size reason, its content equals the content produced from the
chunks before the trip point (nothing fed at or after the tripping chunk
appears), and the byte counter stops at the pre-trip total. -/
theorem C2_amended_size_trip (cfg : MemoryConfig) (chunks : List (List Char))
    (hover : maxBytes cfg < (chunks.flatten).length)
    (hlines : ∀ ℓ ∈ splitLines chunks.flatten, ℓ.length ≤ cfg.MaxLineLength)
    (hfiles : markerCount chunks.flatten ≤ cfg.MaxFileCount) :
    ∃ k r rp, k < chunks.length ∧
      ((chunks.take k).flatten).length ≤ maxBytes cfg ∧
      maxBytes cfg < ((chunks.take (k + 1)).flatten).length ∧
      runProcessor cfg chunks = some r ∧
      runProcessor cfg (chunks.take k) = some rp ∧
      r.IsTruncated = true ∧
      r.WarningReason = sizeMsg cfg ∧
      r.Content = rp.Content ∧
      r.TotalSizeKB = ((chunks.take k).flatten).length / 1024 := by
  classical
  set P : Nat → Prop := fun m => ((chunks.take m).flatten).length ≤ maxBytes cfg with hP
  have hP0 : P 0 := by simp [hP]
  set k := Nat.findGreatest P chunks.length with hk
  have hkle : k ≤ chunks.length := Nat.findGreatest_le chunks.length
  have hPk : P k := by
    by_cases hk0 : k = 0
    · rw [hk0]; exact hP0
    · exact Nat.findGreatest_of_ne_zero hk.symm hk0
  have hklt : k < chunks.length := by
    rcases Nat.lt_or_ge k chunks.length with h | h
    · exact h
    · exfalso
      have hkeq : k = chunks.length := le_antisymm hkle h
      have := hPk
      rw [hkeq] at this
      simp only [hP, List.take_length] at this
      omega
  have hnotP : ¬ P (k + 1) := by
    intro hPk1
    have h2 : k + 1 ≤ chunks.length := hklt
    have h3 := Nat.le_findGreatest h2 hPk1
    omega
  have hsplit : (chunks.take k).flatten ++ ((chunks.drop k).flatten) =
      chunks.flatten := by
    rw [← List.flatten_append, List.take_append_drop]
  have hlines2 : ∀ m ∈ splitLines ((chunks.take k).flatten ++ (chunks.drop k).flatten),
      m.length ≤ cfg.MaxLineLength := by
    rw [hsplit]
    exact hlines
  have hlines_t : ∀ ℓ ∈ splitLines ((chunks.take k).flatten),
      ℓ.length ≤ cfg.MaxLineLength :=
    splitLines_prefix_length_le hlines2
  have hfiles_t : markerCount ((chunks.take k).flatten) ≤ cfg.MaxFileCount := by
    have h1 := markerCount_prefix_le ((chunks.take k).flatten) ((chunks.drop k).flatten)
    rw [hsplit] at h1
    omega
  obtain ⟨q, hq, hbuf, hlbq, hfrq, htrq, hmsgq, hmcq, hbrq⟩ :=
    processChunks_clean_state cfg (chunks.take k) hPk hlines_t hfiles_t
  have hlen_pl : q.lineBuffer.length ≤ q.memConfig.MaxLineLength := by
    rw [hlbq, hmcq]
    exact hlines_t _ (lastLine_mem _)
  have hsucc : chunks.take (k + 1) = chunks.take k ++ [chunks[k]] :=
    take_succ_eq chunks k hklt
  have hsz_trip : maxBytes q.memConfig < q.bytesRead + (chunks[k]).length := by
    rw [hmcq, hbrq]
    have := hnotP
    simp only [hP, hsucc, List.flatten_append, List.length_append] at this
    simp only [List.flatten, List.append_nil] at this
    omega
  have htrip : ProcessChunk q chunks[k] =
      some { q with isTruncated := true, truncateMsg := sizeMsg q.memConfig } := by
    unfold ProcessChunk
    rw [if_neg (by rw [htrq]; simp), if_pos hsz_trip]
  have hdrop : chunks.drop k = chunks[k] :: chunks.drop (k + 1) :=
    List.drop_eq_getElem_cons hklt
  have hfull : processChunks (NewSafeDiffProcessor cfg) chunks =
      some { q with isTruncated := true, truncateMsg := sizeMsg q.memConfig } := by
    rw [← List.take_append_drop k chunks,
      processChunks_append (chunks.take k) (chunks.drop k), hq, hdrop]
    simp only [processChunks, htrip]
    exact processChunks_truncated rfl (chunks.drop (k + 1))
  obtain ⟨r, rp, hr1, hr2, hcont, htsz, hfc, hrtr, hrw, hrpt, hrptr, hrpw⟩ :=
    @GetResult_pair q { q with isTruncated := true, truncateMsg := sizeMsg q.memConfig }
      rfl rfl rfl rfl rfl hlen_pl
  have hover_k : maxBytes cfg < ((chunks.take (k + 1)).flatten).length := by
    have h2 := hnotP
    simp only [hP, not_le] at h2
    exact h2
  refine ⟨k, r, rp, hklt, hPk, hover_k, ?_, ?_, ?_, ?_, hcont, ?_⟩
  · rw [runProcessor_eq hfull]
    exact hr1
  · rw [runProcessor_eq hq]
    exact hr2
  · rw [hrtr]
  · rw [hrw]
    show sizeMsg q.memConfig = sizeMsg cfg
    rw [hmcq]
  · rw [htsz, hrpt, hbrq]

theorem startsWith_length {s pre : List Char} (h : startsWith s pre = true) :
    pre.length ≤ s.length := by
  induction pre generalizing s with
  | nil => simp
  | cons b pre2 ih =>
    cases s with
    | nil => exact absurd h (by simp [startsWith])
    | cons a s2 =>
      simp only [startsWith, Bool.and_eq_true] at h
      have := ih h.2
      simp only [List.length_cons]
      omega

/-- C5 (amended): for every chunked stream within the size ceiling and the
line-length ceiling whose count of newline-terminated `"diff --git"` header
lines exceeds the file ceiling, the result is truncated with the file-limit
reason, the file counter reads ceiling + 1, and the output content contains
the ceiling's worth of complete file sections plus the header line of the
first over-ceiling section — `GetResult` flushes the tripping header line
out of the line buffer, so the content holds ceiling + 1 header lines, one
more than the claim states. -/
theorem C5_amended_file_trip (cfg : MemoryConfig) (chunks : List (List Char))
    (hsize : (chunks.flatten).length ≤ maxBytes cfg)
    (hlines : ∀ ℓ ∈ splitLines chunks.flatten, ℓ.length ≤ cfg.MaxLineLength)
    (hfiles : cfg.MaxFileCount < markerCount chunks.flatten) :
    ∃ r, runProcessor cfg chunks = some r ∧
      r.IsTruncated = true ∧
      r.WarningReason = fileMsg cfg ∧
      r.FileCount = cfg.MaxFileCount + 1 ∧
      markerCount r.Content = cfg.MaxFileCount + 1 := by
  have hnl_ls : ∀ l ∈ terminatedLines chunks.flatten, '\n' ∉ l :=
    fun l hl => mem_splitLines_no_nl (mem_terminatedLines_mem hl)
  have hlen_ls : ∀ l ∈ terminatedLines chunks.flatten, l.length ≤ cfg.MaxLineLength :=
    fun l hl => hlines l (mem_terminatedLines_mem hl)
  have hfc0 : (NewSafeDiffProcessor cfg).memConfig.MaxFileCount <
      (NewSafeDiffProcessor cfg).filesRead +
      ((terminatedLines chunks.flatten).filter isDiffHeader).length := by
    show cfg.MaxFileCount < 0 + _
    unfold markerCount at hfiles
    omega
  obtain ⟨pre, fatal, post, hsplit, hfatal, hcount, hrun⟩ :=
    processBytes_fileTrip (terminatedLines chunks.flatten) (lastLine chunks.flatten)
      (NewSafeDiffProcessor cfg) rfl rfl hnl_ls hlen_ls (Nat.zero_le _) hfc0
  rw [joinLines_terminated_lastLine chunks.flatten] at hrun
  have hsz0 : (NewSafeDiffProcessor cfg).bytesRead + (chunks.flatten).length ≤
      maxBytes (NewSafeDiffProcessor cfg).memConfig := by
    show 0 + (chunks.flatten).length ≤ maxBytes cfg
    omega
  have hfus := @processChunks_fusion chunks (NewSafeDiffProcessor cfg) rfl hsz0
  rw [hrun] at hfus
  cases hpc : processChunks (NewSafeDiffProcessor cfg) chunks with
  | none => rw [hpc] at hfus; exact absurd hfus (by simp [optionCoreEq])
  | some q =>
    rw [hpc] at hfus
    have hcq : coreEq q _ := hfus
    have hfatal_mem : fatal ∈ terminatedLines chunks.flatten := by
      rw [hsplit]
      exact List.mem_append_right pre (List.mem_cons_self fatal post)
    have hfatal_len : fatal.length ≤ cfg.MaxLineLength := hlen_ls fatal hfatal_mem
    have hpre_mem : ∀ l ∈ pre, l ∈ terminatedLines chunks.flatten := by
      intro l hl
      rw [hsplit]
      exact List.mem_append_left _ hl
    have hbuf : q.buffer = joinLines pre := by simpa using hcq.2.1
    have hlbq : q.lineBuffer = fatal := by simpa using hcq.2.2.1
    have hfrq : q.filesRead = cfg.MaxFileCount + 1 := by simpa using hcq.2.2.2.2.1
    have htrq : q.isTruncated = true := by simpa using hcq.2.2.2.2.2.1
    have hmsg : q.truncateMsg = fileMsg cfg := by simpa using hcq.2.2.2.2.2.2
    have hmc : q.memConfig = cfg := by simpa using hcq.1
    have hfatal_ne : fatal.length ≠ 0 := by
      have h10 : marker.length ≤ fatal.length := startsWith_length hfatal
      have : marker.length = 10 := by decide
      omega
    have htl : truncateLine fatal cfg.MaxLineLength = some fatal := by
      unfold truncateLine
      rw [if_pos hfatal_len]
    have hres : GetResult q = some
        { Content := joinLines pre ++ fatal ++ ['\n'],
          IsTruncated := q.isTruncated,
          TotalSizeKB := q.bytesRead / 1024, FileCount := q.filesRead,
          TruncatedAt := q.truncateMsg, WarningReason := q.truncateMsg } := by
      unfold GetResult
      rw [hlbq, hmc, hbuf, if_pos hfatal_ne, htl]
    refine ⟨_, (runProcessor_eq hpc).trans hres, htrq, hmsg, hfrq, ?_⟩
    show markerCount (joinLines pre ++ fatal ++ ['\n']) = cfg.MaxFileCount + 1
    have hjoin : joinLines pre ++ fatal ++ ['\n'] = joinLines (pre ++ [fatal]) := by
      rw [joinLines_append pre [fatal]]
      show joinLines pre ++ fatal ++ ['\n'] = joinLines pre ++ (fatal ++ '\n' :: [])
      simp [List.append_assoc]
    rw [hjoin]
    have hnl_all : ∀ l ∈ pre ++ [fatal], '\n' ∉ l := by
      intro l hl
      rcases List.mem_append.mp hl with h | h
      · exact hnl_ls l (hpre_mem l h)
      · have : l = fatal := by simpa using h
        subst this
        exact hnl_ls l hfatal_mem
    unfold markerCount
    rw [terminatedLines_joinLines (pre ++ [fatal]) hnl_all]
    rw [List.filter_append, List.length_append]
    have hfil : (List.filter isDiffHeader [fatal]).length = 1 := by
      simp [List.filter_cons, hfatal]
    rw [hfil]
    have hc2 := hcount
    simp only [NewSafeDiffProcessor] at hc2
    omega
theorem ellipsis_length : ellipsis.length = 3 := rfl

theorem GetResult_flush_none {p : SafeDiffProcessor}
    (hne : p.lineBuffer.length ≠ 0)
    (htl : truncateLine p.lineBuffer p.memConfig.MaxLineLength = none) :
    GetResult p = none := by
  unfold GetResult
  rw [if_pos hne, htl]

theorem GetResult_flush_some {p : SafeDiffProcessor} {tl : List Char}
    (hne : p.lineBuffer.length ≠ 0)
    (htl : truncateLine p.lineBuffer p.memConfig.MaxLineLength = some tl) :
    GetResult p = some
      { Content := p.buffer ++ tl ++ ['\n'], IsTruncated := p.isTruncated,
        TotalSizeKB := p.bytesRead / 1024, FileCount := p.filesRead,
        TruncatedAt := p.truncateMsg, WarningReason := p.truncateMsg } := by
  unfold GetResult
  rw [if_pos hne, htl]

/-- The state of the processor after feeding one newline-free chunk within
the size ceiling: the chunk sits in the line buffer, nothing was emitted. -/
theorem processChunks_single_noNL (cfg : MemoryConfig) (line : List Char)
    (hnl : '\n' ∉ line) (hsz : line.length ≤ maxBytes cfg) :
    processChunks (NewSafeDiffProcessor cfg) [line] = some
      { memConfig := cfg, buffer := [], lineBuffer := line,
        bytesRead := 0 + line.length, linesRead := 0, filesRead := 0,
        isTruncated := false, truncateMsg := "" } := by
  have hsz1 : ¬ maxBytes (NewSafeDiffProcessor cfg).memConfig <
      (NewSafeDiffProcessor cfg).bytesRead + line.length := by
    show ¬ maxBytes cfg < 0 + line.length
    omega
  have hacc := processBytes_accum hnl
    { memConfig := cfg, buffer := [], lineBuffer := [],
      bytesRead := 0 + line.length, linesRead := 0, filesRead := 0,
      isTruncated := false, truncateMsg := "" } []
  rw [List.append_nil] at hacc
  simp only [List.nil_append] at hacc
  show (match ProcessChunk (NewSafeDiffProcessor cfg) line with
    | none => none
    | some q => processChunks q []) = _
  unfold ProcessChunk
  rw [if_neg (by simp [NewSafeDiffProcessor]), if_neg hsz1]
  simp only [NewSafeDiffProcessor]
  have hstep : processBytes
      { memConfig := cfg, buffer := [], lineBuffer := [],
        bytesRead := 0 + line.length, linesRead := 0, filesRead := 0,
        isTruncated := false, truncateMsg := "" } line = some
      { memConfig := cfg, buffer := [], lineBuffer := line,
        bytesRead := 0 + line.length, linesRead := 0, filesRead := 0,
        isTruncated := false, truncateMsg := "" } := hacc
  rw [hstep]
  rfl

/-- C6 (confirmed): a line longer than the line ceiling — here fed as a
trailing partial line with no terminating newline, flushed by `GetResult` —
is emitted as exactly `MaxLineLength` characters ending in the `"..."`
marker, followed by a newline in the output content.  (Requires the valid
configuration `3 ≤ MaxLineLength`; see C10 for what happens below 3.) -/
theorem C6_line_truncation (cfg : MemoryConfig) (line : List Char)
    (h3 : 3 ≤ cfg.MaxLineLength)
    (hlong : cfg.MaxLineLength < line.length)
    (hnl : '\n' ∉ line)
    (hsz : line.length ≤ maxBytes cfg) :
    (∃ t, truncateLine line cfg.MaxLineLength = some t ∧
      t.length = cfg.MaxLineLength ∧
      t = line.take (cfg.MaxLineLength - 3) ++ ellipsis) ∧
    (∃ r, runProcessor cfg [line] = some r ∧
      r.Content = line.take (cfg.MaxLineLength - 3) ++ ellipsis ++ ['\n']) := by
  have htl : truncateLine line cfg.MaxLineLength =
      some (line.take (cfg.MaxLineLength - 3) ++ ellipsis) := by
    unfold truncateLine
    rw [if_neg (by omega), if_pos h3]
  have htlen : (line.take (cfg.MaxLineLength - 3) ++ ellipsis).length =
      cfg.MaxLineLength := by
    rw [List.length_append, List.length_take, ellipsis_length]
    omega
  refine ⟨⟨_, htl, htlen, rfl⟩, ?_⟩
  have hpc := processChunks_single_noNL cfg line hnl hsz
  have hne : line.length ≠ 0 := by omega
  have hres := @GetResult_flush_some
    { memConfig := cfg, buffer := [], lineBuffer := line,
      bytesRead := 0 + line.length, linesRead := 0, filesRead := 0,
      isTruncated := false, truncateMsg := "" }
    (line.take (cfg.MaxLineLength - 3) ++ ellipsis) hne htl
  refine ⟨_, (runProcessor_eq hpc).trans hres, ?_⟩
  show [] ++ (line.take (cfg.MaxLineLength - 3) ++ ellipsis) ++ ['\n'] = _
  simp

/-- C10 (confirmed): `truncateLine` panics (returns `none` in this model)
exactly when the line exceeds `maxLength` and `maxLength < 3` — the Go slice
`line[:maxLength-3]` gets a negative bound; under any configuration with
`MaxLineLength ≥ 3` the whole pipeline (`ProcessChunk` iterated, then
`GetResult`) is total, while with `MaxLineLength < 3` the first over-long
line — here a trailing partial line flushed at `GetResult` — panics. -/
theorem C10_truncateLine_safety :
    (∀ (line : List Char) (maxLength : Nat),
        truncateLine line maxLength = none ↔
          (maxLength < line.length ∧ maxLength < 3)) ∧
    (∀ (cfg : MemoryConfig) (chunks : List (List Char)), 3 ≤ cfg.MaxLineLength →
        ∃ r, runProcessor cfg chunks = some r) ∧
    (∀ (cfg : MemoryConfig) (line : List Char), cfg.MaxLineLength < 3 →
        cfg.MaxLineLength < line.length → '\n' ∉ line →
        line.length ≤ maxBytes cfg →
        runProcessor cfg [line] = none) := by
  refine ⟨truncateLine_eq_none_iff, runProcessor_isSome, ?_⟩
  intro cfg line hlt3 hlong hnl hsz
  have hpc := processChunks_single_noNL cfg line hnl hsz
  have htl : truncateLine line cfg.MaxLineLength = none := by
    rw [truncateLine_eq_none_iff]
    omega
  have hne : line.length ≠ 0 := by omega
  rw [runProcessor_eq hpc]
  exact @GetResult_flush_none
    { memConfig := cfg, buffer := [], lineBuffer := line,
      bytesRead := 0 + line.length, linesRead := 0, filesRead := 0,
      isTruncated := false, truncateMsg := "" } hne htl

/-- C1 (counterexample to the claim as stated): under the default ceilings
the single unterminated header line `"diff --git a b"` is within all three
ceilings, yet the output content is the input plus an appended newline —
not equal to the input — and the file counter reads 0 although the input
holds one file-header line. -/
theorem C1_counterexample :
    ((("diff --git a b".toList).length ≤ maxBytes ⟨10, 1000, 1000⟩) ∧
      (∀ ℓ ∈ splitLines ("diff --git a b".toList), ℓ.length ≤ 1000) ∧
      markerCount ("diff --git a b".toList) ≤ 1000 ∧
      ((splitLines ("diff --git a b".toList)).filter isDiffHeader).length = 1) ∧
    (runProcessor ⟨10, 1000, 1000⟩ ["diff --git a b".toList]).map
        (fun r => (r.Content, r.FileCount, r.IsTruncated, r.WarningReason)) =
      some ("diff --git a b".toList ++ ['\n'], 0, false, "") ∧
    "diff --git a b".toList ++ ['\n'] ≠ "diff --git a b".toList := by
  decide

/-- C1 witness: the amended clean-run theorem at a concrete stream. -/
theorem C1_amended_clean_run_witness :
    ∃ r, runProcessor ⟨10, 1000, 1000⟩ [['a', '\n']] = some r ∧
      r.IsTruncated = false ∧ r.WarningReason = "" ∧
      r.TotalSizeKB = (([['a', '\n']] : List (List Char)).flatten).length / 1024 ∧
      r.FileCount = markerCount ([['a', '\n']] : List (List Char)).flatten ∧
      r.Content = ([['a', '\n']] : List (List Char)).flatten ++
        (if lastLine ([['a', '\n']] : List (List Char)).flatten = [] then []
         else ['\n']) ∧
      ∃ q, processChunks (NewSafeDiffProcessor ⟨10, 1000, 1000⟩) [['a', '\n']] =
          some q ∧
        q.bytesRead = (([['a', '\n']] : List (List Char)).flatten).length :=
  C1_amended_clean_run ⟨10, 1000, 1000⟩ [['a', '\n']] (by decide) (by decide)
    (by decide)

/-- C2 (counterexample to the claim as stated): a stream whose cumulative
byte count exceeds the 1 MB size ceiling, but whose first chunk trips the
file-count ceiling first — the final reason names the files limit, not the
size limit. -/
theorem C2_counterexample :
    maxBytes ⟨1, 0, 100⟩ <
      (([("diff --git\n".toList), List.replicate 1048576 'a']
        : List (List Char)).flatten).length ∧
    (runProcessor ⟨1, 0, 100⟩
        [("diff --git\n".toList), List.replicate 1048576 'a']).map
        (fun r => (r.IsTruncated, r.WarningReason)) =
      some (true, "Truncated at 0 files limit") ∧
    "Truncated at 0 files limit" ≠ sizeMsg ⟨1, 0, 100⟩ := by
  refine ⟨?_, rfl, by decide⟩
  show 1 * 1024 * 1024 < _
  rw [List.flatten_cons, List.flatten_cons, List.flatten_nil,
    List.length_append, List.length_append, List.length_replicate]
  decide

/-- C2 witness: the amended size-trip theorem at a concrete stream. -/
theorem C2_amended_size_trip_witness :
    ∃ k r rp, k < ([['a']] : List (List Char)).length ∧
      ((([['a']] : List (List Char)).take k).flatten).length ≤ maxBytes ⟨0, 10, 10⟩ ∧
      maxBytes ⟨0, 10, 10⟩ <
        ((([['a']] : List (List Char)).take (k + 1)).flatten).length ∧
      runProcessor ⟨0, 10, 10⟩ [['a']] = some r ∧
      runProcessor ⟨0, 10, 10⟩ (([['a']] : List (List Char)).take k) = some rp ∧
      r.IsTruncated = true ∧
      r.WarningReason = sizeMsg ⟨0, 10, 10⟩ ∧
      r.Content = rp.Content ∧
      r.TotalSizeKB = ((([['a']] : List (List Char)).take k).flatten).length / 1024 :=
  C2_amended_size_trip ⟨0, 10, 10⟩ [['a']] (by decide) (by decide) (by decide)

/-- C5 (counterexample to the claim as stated): with a file ceiling of 1,
a stream holding two header sections yields a content with 2 header lines —
the ceiling's worth plus the flushed over-ceiling header — where the claim
says the content contains exactly 1. -/
theorem C5_counterexample :
    (1 : Nat) < markerCount ("diff --git a\nx\ndiff --git b\ny\n".toList) ∧
    ("diff --git a\nx\ndiff --git b\ny\n".toList).length ≤ maxBytes ⟨1, 1, 100⟩ ∧
    (runProcessor ⟨1, 1, 100⟩ ["diff --git a\nx\ndiff --git b\ny\n".toList]).map
        (fun r => (markerCount r.Content, r.FileCount, r.IsTruncated,
          r.WarningReason)) =
      some (2, 2, true, "Truncated at 1 files limit") := by
  decide

/-- C5 witness: the amended file-trip theorem at a concrete stream. -/
theorem C5_amended_file_trip_witness :
    ∃ r, runProcessor ⟨1, 1, 100⟩ ["diff --git a\nx\ndiff --git b\ny\n".toList] =
        some r ∧
      r.IsTruncated = true ∧
      r.WarningReason = fileMsg ⟨1, 1, 100⟩ ∧
      r.FileCount = (⟨1, 1, 100⟩ : MemoryConfig).MaxFileCount + 1 ∧
      markerCount r.Content = (⟨1, 1, 100⟩ : MemoryConfig).MaxFileCount + 1 :=
  C5_amended_file_trip ⟨1, 1, 100⟩ ["diff --git a\nx\ndiff --git b\ny\n".toList]
    (by decide) (by decide) (by decide)

/-- C6 witness: the line-truncation theorem at a concrete over-long line. -/
theorem C6_line_truncation_witness :
    (∃ t, truncateLine ("abcdefgh".toList)
        (⟨1, 10, 5⟩ : MemoryConfig).MaxLineLength = some t ∧
      t.length = (⟨1, 10, 5⟩ : MemoryConfig).MaxLineLength ∧
      t = ("abcdefgh".toList).take ((⟨1, 10, 5⟩ : MemoryConfig).MaxLineLength - 3) ++
        ellipsis) ∧
    (∃ r, runProcessor ⟨1, 10, 5⟩ ["abcdefgh".toList] = some r ∧
      r.Content =
        ("abcdefgh".toList).take ((⟨1, 10, 5⟩ : MemoryConfig).MaxLineLength - 3) ++
          ellipsis ++ ['\n']) :=
  C6_line_truncation ⟨1, 10, 5⟩ ("abcdefgh".toList) (by decide) (by decide)
    (by decide) (by decide)

/-- C10 witness: a sub-3 line ceiling panics on an over-long partial line;
a ceiling of 3 is total on the same stream. -/
theorem C10_truncateLine_safety_witness :
    runProcessor ⟨1, 10, 1⟩ [['a', 'b']] = none ∧
    ∃ r, runProcessor ⟨1, 10, 3⟩ [['a', 'b']] = some r :=
  ⟨C10_truncateLine_safety.2.2 ⟨1, 10, 1⟩ ['a', 'b'] (by decide) (by decide)
      (by decide) (by decide),
    C10_truncateLine_safety.2.1 ⟨1, 10, 3⟩ [['a', 'b']] (by decide)⟩

/-! ## Retry layer (llm/retry.go)

Durations (`time.Duration`, float64 intermediates) are modelled over `ℚ` in
nanoseconds: the arithmetic of `CalculateDelay` is carried out exactly,
eliding only the float rounding and the final integer truncation of
`time.Duration(delay)`.  The random source `time.Now().UnixNano() % 1000`
is passed in as the `nanos` parameter. -/

/-- `RetryConfig` (retry.go lines 14-19). -/
structure RetryConfig where
  MaxRetries : Nat
  BaseDelay : ℚ
  MaxDelay : ℚ
  BackoffMultiple : ℚ

/-- `DefaultRetryConfig` (retry.go lines 22-29); 1s and 30s in nanoseconds. -/
def DefaultRetryConfig : RetryConfig :=
  { MaxRetries := 3, BaseDelay := 1000000000, MaxDelay := 30000000000,
    BackoffMultiple := 2 }

/-- Go error values that can appear in the retry loop. -/
inductive GoError
  | ctxCanceled
  | ctxDeadlineExceeded
  | netError (msg : String)
  | httpError (code : Nat)
  | afterAttempts (n : Nat) (inner : GoError)
  deriving DecidableEq, Repr

/-- `IsRetryableError` (retry.go lines 32-48): context cancellation and
deadline are never retried; `net.Error` values are; everything else is not.
(The Go `err == nil` guard is handled at the call sites, which only call
this on a non-nil error.) -/
def IsRetryableError : GoError → Bool
  | .ctxCanceled => false
  | .ctxDeadlineExceeded => false
  | .netError _ => true
  | .httpError _ => false
  | .afterAttempts _ _ => false

/-- `IsRetryableHTTPStatus` (retry.go lines 51-66). -/
def IsRetryableHTTPStatus (statusCode : Nat) : Bool :=
  statusCode == 429 || statusCode == 500 || statusCode == 502 ||
  statusCode == 503 || statusCode == 504

/-- `(2*float64(time.Now().UnixNano()%1000)/1000 - 1)` — the uniform random
factor in `[-1, 1)` used by the jitter. -/
def jitterFactor (nanos : Nat) : ℚ :=
  2 * ((nanos % 1000 : Nat) : ℚ) / 1000 - 1

/-- `RetryConfig.CalculateDelay` (retry.go lines 69-86): attempt 0 returns
the base delay; otherwise `delay = base * multiplier^attempt`, then
`delay += 0.25 * delay * jitterFactor`, then clamp to `MaxDelay`. -/
def CalculateDelay (rc : RetryConfig) (nanos : Nat) (attempt : Nat) : ℚ :=
  if attempt = 0 then rc.BaseDelay
  else if rc.MaxDelay < rc.BaseDelay * rc.BackoffMultiple ^ attempt +
      (1 / 4 : ℚ) * (rc.BaseDelay * rc.BackoffMultiple ^ attempt) * jitterFactor nanos
    then rc.MaxDelay
    else rc.BaseDelay * rc.BackoffMultiple ^ attempt +
      (1 / 4 : ℚ) * (rc.BaseDelay * rc.BackoffMultiple ^ attempt) * jitterFactor nanos

/-- `http.Response`: only the status code matters to the retry loop. -/
structure Response where
  StatusCode : Nat
  deriving DecidableEq, Repr

/-- `http.Request`: `Body` is the byte content a fresh reader over the body
yields (`none` models a nil body). -/
structure HTTPRequest where
  Body : Option (List Nat)

/-- The `for attempt := 0; attempt <= config.MaxRetries` loop of
`RetryableHTTPRequest` (retry.go lines 89-141), with `remaining` fuel
(`MaxRetries + 1 - attempt`; the fuel-exhausted branch models the
unreachable fall-through return on line 141).  `client attempt` is the
outcome of `client.Do(reqCopy)` on that attempt; `cancelDuringSleep attempt`
tells whether `ctx.Done()` fires during the sleep after that attempt.  The
second component records, per attempt, the body content the fresh reader
`io.NopCloser(bytes.NewReader(bodyBytes))` presents to the client. -/
def retryLoop (cfg : RetryConfig) (client : Nat → Except GoError Response)
    (cancelDuringSleep : Nat → Bool) (bodyBytes : Option (List Nat)) :
    Nat → Nat → Option GoError →
    Except GoError Response × List (Option (List Nat))
  | 0, _, lastErr =>
    (.error (.afterAttempts (cfg.MaxRetries + 1)
      (lastErr.getD (.netError "nil"))), [])
  | remaining + 1, attempt, _ =>
    match client attempt with
    | .ok resp =>
      if ¬ IsRetryableHTTPStatus resp.StatusCode then
        (.ok resp, [bodyBytes])
      else if attempt = cfg.MaxRetries then
        (.error (.afterAttempts (attempt + 1) (.httpError resp.StatusCode)),
          [bodyBytes])
      else if cancelDuringSleep attempt then
        (.error .ctxCanceled, [bodyBytes])
      else
        let next := retryLoop cfg client cancelDuringSleep bodyBytes remaining
          (attempt + 1) (some (.httpError resp.StatusCode))
        (next.1, bodyBytes :: next.2)
    | .error e =>
      if IsRetryableError e then
        if attempt = cfg.MaxRetries then
          (.error (.afterAttempts (attempt + 1) e), [bodyBytes])
        else if cancelDuringSleep attempt then
          (.error .ctxCanceled, [bodyBytes])
        else
          let next := retryLoop cfg client cancelDuringSleep bodyBytes remaining
            (attempt + 1) (some e)
          (next.1, bodyBytes :: next.2)
      else
        (.error e, [bodyBytes])

/-- `RetryableHTTPRequest` (retry.go lines 89-141): the body is read and
buffered once (`io.ReadAll(req.Body)`, lines 93-101) before the loop; every
attempt then gets a fresh reader over those same bytes. -/
def RetryableHTTPRequest (cfg : RetryConfig)
    (client : Nat → Except GoError Response) (cancelDuringSleep : Nat → Bool)
    (req : HTTPRequest) :
    Except GoError Response × List (Option (List Nat)) :=
  retryLoop cfg client cancelDuringSleep req.Body (cfg.MaxRetries + 1) 0 none

theorem retryLoop_trace (cfg : RetryConfig) (client : Nat → Except GoError Response)
    (cancel : Nat → Bool) (bodyBytes : Option (List Nat)) :
    ∀ (remaining attempt : Nat) (lastErr : Option GoError),
      (1 ≤ remaining →
        (retryLoop cfg client cancel bodyBytes remaining attempt lastErr).2 ≠ []) ∧
      ∀ sent ∈ (retryLoop cfg client cancel bodyBytes remaining attempt lastErr).2,
        sent = bodyBytes := by
  intro remaining
  induction remaining with
  | zero =>
    intro attempt lastErr
    exact ⟨by omega, by simp [retryLoop]⟩
  | succ rem ih =>
    intro attempt lastErr
    constructor
    · intro hpos
      cases hc : client attempt with
      | ok resp =>
        by_cases h1 : ¬ IsRetryableHTTPStatus resp.StatusCode
        · simp [retryLoop, hc, h1]
        · by_cases h2 : attempt = cfg.MaxRetries
          · subst h2
            simp [retryLoop, hc, h1]
          · by_cases h3 : cancel attempt
            · simp [retryLoop, hc, h1, h2, h3]
            · simp [retryLoop, hc, h1, h2, h3]
      | error e =>
        by_cases h1 : IsRetryableError e
        · by_cases h2 : attempt = cfg.MaxRetries
          · subst h2
            simp [retryLoop, hc, h1]
          · by_cases h3 : cancel attempt
            · simp [retryLoop, hc, h1, h2, h3]
            · simp [retryLoop, hc, h1, h2, h3]
        · simp [retryLoop, hc, h1]
    · intro sent hsent
      cases hc : client attempt with
      | ok resp =>
        by_cases h1 : ¬ IsRetryableHTTPStatus resp.StatusCode
        · simp [retryLoop, hc, h1] at hsent
          exact hsent
        · by_cases h2 : attempt = cfg.MaxRetries
          · subst h2
            simp [retryLoop, hc, h1] at hsent
            exact hsent
          · by_cases h3 : cancel attempt
            · simp [retryLoop, hc, h1, h2, h3] at hsent
              exact hsent
            · simp [retryLoop, hc, h1, h2, h3] at hsent
              rcases hsent with hsent | hsent
              · exact hsent
              · exact (ih (attempt + 1) (some (.httpError resp.StatusCode))).2 sent hsent
      | error e =>
        by_cases h1 : IsRetryableError e
        · by_cases h2 : attempt = cfg.MaxRetries
          · subst h2
            simp [retryLoop, hc, h1] at hsent
            exact hsent
          · by_cases h3 : cancel attempt
            · simp [retryLoop, hc, h1, h2, h3] at hsent
              exact hsent
            · simp [retryLoop, hc, h1, h2, h3] at hsent
              rcases hsent with hsent | hsent
              · exact hsent
              · exact (ih (attempt + 1) (some e)).2 sent hsent
        · simp [retryLoop, hc, h1] at hsent
          exact hsent

/-- C4 (confirmed): for every request with a non-nil body, the body is
buffered once before the first attempt and every attempt — at least one
happens — sends a fresh reader over exactly those buffered bytes: no
attempt ever sees a drained or partially consumed body. -/
theorem C4_body_buffered_once (cfg : RetryConfig)
    (client : Nat → Except GoError Response) (cancel : Nat → Bool)
    (req : HTTPRequest) (bs : List Nat) (hbody : req.Body = some bs) :
    (RetryableHTTPRequest cfg client cancel req).2 ≠ [] ∧
    ∀ sent ∈ (RetryableHTTPRequest cfg client cancel req).2, sent = some bs := by
  have h := retryLoop_trace cfg client cancel req.Body (cfg.MaxRetries + 1) 0 none
  refine ⟨h.1 (by omega), ?_⟩
  intro sent hsent
  rw [h.2 sent hsent, hbody]

/-- C4 witness. -/
theorem C4_body_buffered_once_witness :
    (RetryableHTTPRequest ⟨1, 1, 30, 2⟩ (fun _ => .ok ⟨200⟩) (fun _ => false)
      ⟨some [1, 2, 3]⟩).2 ≠ [] :=
  (C4_body_buffered_once ⟨1, 1, 30, 2⟩ (fun _ => .ok ⟨200⟩) (fun _ => false)
    ⟨some [1, 2, 3]⟩ [1, 2, 3] rfl).1

theorem jitterFactor_bounds (nanos : Nat) :
    -1 ≤ jitterFactor nanos ∧ jitterFactor nanos ≤ 1 := by
  unfold jitterFactor
  have h0 : (0 : ℚ) ≤ ((nanos % 1000 : Nat) : ℚ) := Nat.cast_nonneg _
  have h999 : ((nanos % 1000 : Nat) : ℚ) ≤ 999 := by
    have : nanos % 1000 < 1000 := Nat.mod_lt _ (by norm_num)
    have : nanos % 1000 ≤ 999 := by omega
    exact_mod_cast this
  constructor <;> nlinarith

/-- C7 (confirmed): with max delay ≥ base delay ≥ 0 and a non-negative
multiplier, `CalculateDelay 0` is exactly the base delay; for every attempt
the returned delay never exceeds the configured max; and for attempt ≥ 1
and every jitter outcome the pre-clamp value is
`base * multiplier^attempt` adjusted by at most ±25%, and the returned
delay is that value clamped at `MaxDelay`. -/
theorem C7_backoff_delay (rc : RetryConfig)
    (hmax : rc.BaseDelay ≤ rc.MaxDelay) (hbase : 0 ≤ rc.BaseDelay)
    (hmul : 0 ≤ rc.BackoffMultiple) :
    (∀ nanos, CalculateDelay rc nanos 0 = rc.BaseDelay) ∧
    (∀ nanos attempt, CalculateDelay rc nanos attempt ≤ rc.MaxDelay) ∧
    (∀ nanos attempt, 1 ≤ attempt →
      (3 / 4 : ℚ) * (rc.BaseDelay * rc.BackoffMultiple ^ attempt) ≤
        rc.BaseDelay * rc.BackoffMultiple ^ attempt +
          (1 / 4 : ℚ) * (rc.BaseDelay * rc.BackoffMultiple ^ attempt) *
            jitterFactor nanos ∧
      rc.BaseDelay * rc.BackoffMultiple ^ attempt +
          (1 / 4 : ℚ) * (rc.BaseDelay * rc.BackoffMultiple ^ attempt) *
            jitterFactor nanos ≤
        (5 / 4 : ℚ) * (rc.BaseDelay * rc.BackoffMultiple ^ attempt) ∧
      CalculateDelay rc nanos attempt =
        min (rc.BaseDelay * rc.BackoffMultiple ^ attempt +
          (1 / 4 : ℚ) * (rc.BaseDelay * rc.BackoffMultiple ^ attempt) *
            jitterFactor nanos) rc.MaxDelay) := by
  have hideal : ∀ attempt : Nat, 0 ≤ rc.BaseDelay * rc.BackoffMultiple ^ attempt :=
    fun attempt => mul_nonneg hbase (pow_nonneg hmul attempt)
  refine ⟨fun nanos => by unfold CalculateDelay; rw [if_pos rfl], ?_, ?_⟩
  · intro nanos attempt
    unfold CalculateDelay
    by_cases h0 : attempt = 0
    · rw [if_pos h0]
      exact hmax
    · rw [if_neg h0]
      by_cases hclamp : rc.MaxDelay < rc.BaseDelay * rc.BackoffMultiple ^ attempt +
          (1 / 4 : ℚ) * (rc.BaseDelay * rc.BackoffMultiple ^ attempt) *
            jitterFactor nanos
      · rw [if_pos hclamp]
      · rw [if_neg hclamp]
        exact le_of_not_lt hclamp
  · intro nanos attempt hatt
    have hjf := jitterFactor_bounds nanos
    have hid := hideal attempt
    refine ⟨by nlinarith [mul_nonneg hid (by linarith : (0:ℚ) ≤ jitterFactor nanos + 1)],
      by nlinarith [mul_nonneg hid (by linarith : (0:ℚ) ≤ 1 - jitterFactor nanos)], ?_⟩
    unfold CalculateDelay
    rw [if_neg (by omega)]
    by_cases hclamp : rc.MaxDelay < rc.BaseDelay * rc.BackoffMultiple ^ attempt +
        (1 / 4 : ℚ) * (rc.BaseDelay * rc.BackoffMultiple ^ attempt) *
          jitterFactor nanos
    · rw [if_pos hclamp, min_eq_right (le_of_lt hclamp)]
    · rw [if_neg hclamp, min_eq_left (le_of_not_lt hclamp)]

/-- C7 witness: attempt 0 of the default-like policy returns the base delay. -/
theorem C7_backoff_delay_witness :
    CalculateDelay ⟨3, 1, 30, 2⟩ 123 0 = (⟨3, 1, 30, 2⟩ : RetryConfig).BaseDelay :=
  (C7_backoff_delay ⟨3, 1, 30, 2⟩ (by norm_num) (by norm_num) (by norm_num)).1 123

/-! ## Chunk splitting (llm/provider.go lines 223-252) -/

/-- `strings.LastIndex(chunk, "\n")`: index of the last newline, `none`
for Go's `-1`. -/
def lastIndexNL : List Char → Option Nat
  | [] => none
  | b :: rest =>
    match lastIndexNL rest with
    | some j => some (j + 1)
    | none => if b = '\n' then some 0 else none

theorem lastIndexNL_lt {l : List Char} {j : Nat} (h : lastIndexNL l = some j) :
    j < l.length := by
  induction l generalizing j with
  | nil => exact absurd h (by simp [lastIndexNL])
  | cons b rest ih =>
    simp only [lastIndexNL] at h
    cases hr : lastIndexNL rest with
    | some j2 =>
      rw [hr] at h
      simp only [Option.some.injEq] at h
      subst h
      have := ih hr
      simp only [List.length_cons]
      omega
    | none =>
      rw [hr] at h
      by_cases hb : b = '\n'
      · rw [if_pos hb] at h
        simp only [Option.some.injEq] at h
        subst h
        simp
      · rw [if_neg hb] at h
        exact absurd h (by simp)

theorem lastIndexNL_getElem {l : List Char} {j : Nat} (h : lastIndexNL l = some j) :
    l[j]? = some '\n' := by
  induction l generalizing j with
  | nil => exact absurd h (by simp [lastIndexNL])
  | cons b rest ih =>
    simp only [lastIndexNL] at h
    cases hr : lastIndexNL rest with
    | some j2 =>
      rw [hr] at h
      simp only [Option.some.injEq] at h
      subst h
      simpa using ih hr
    | none =>
      rw [hr] at h
      by_cases hb : b = '\n'
      · rw [if_pos hb] at h
        simp only [Option.some.injEq] at h
        subst h
        simp [hb]
      · rw [if_neg hb] at h
        exact absurd h (by simp)

/-- The `for i := 0; i < len(content); i += chunkSizeBytes` loop of
`splitContentIntoChunks`.  `fuel` bounds the number of iterations; since
every iteration advances `i` by at least 1 when `chunkSizeBytes ≥ 1`,
`fuel = content.length` never runs out (the Go loop does not terminate at
all for `chunkSizeBytes = 0` on non-empty content).  After the line-boundary
adjustment `i = i + lastNewline + 1 - chunkSizeBytes` the loop increment
restores `i + lastNewline + 1`, which is what the recursive call uses. -/
def splitGo (content : List Char) (chunkSizeBytes : Nat) : Nat → Nat → List (List Char)
  | 0, _ => []
  | fuel + 1, i =>
    if i < content.length then
      if min (i + chunkSizeBytes) content.length < content.length then
        match lastIndexNL ((content.drop i).take
            (min (i + chunkSizeBytes) content.length - i)) with
        | some lastNewline =>
          if ((content.drop i).take
              (min (i + chunkSizeBytes) content.length - i)).length / 2 <
              lastNewline then
            ((content.drop i).take (lastNewline + 1)) ::
              splitGo content chunkSizeBytes fuel (i + lastNewline + 1)
          else
            ((content.drop i).take (min (i + chunkSizeBytes) content.length - i)) ::
              splitGo content chunkSizeBytes fuel (i + chunkSizeBytes)
        | none =>
          ((content.drop i).take (min (i + chunkSizeBytes) content.length - i)) ::
            splitGo content chunkSizeBytes fuel (i + chunkSizeBytes)
      else
        ((content.drop i).take (min (i + chunkSizeBytes) content.length - i)) ::
          splitGo content chunkSizeBytes fuel (i + chunkSizeBytes)
    else []

/-- `splitContentIntoChunks` (provider.go lines 223-252). -/
def splitContentIntoChunks (content : List Char) (chunkSizeBytes : Nat) :
    List (List Char) :=
  if content.length ≤ chunkSizeBytes then [content]
  else splitGo content chunkSizeBytes content.length 0

/-- A piece respects the line-boundary preference: it was either cut right
after a newline, or the cut window had no newline in its back half. -/
def pieceOK (p : List Char) : Prop :=
  (p ≠ [] ∧ p.getLast? = some '\n') ∨
  (∀ j, lastIndexNL p = some j → j ≤ p.length / 2)

/-- A predicate holding for every piece except the final one. -/
def allButLast (P : List Char → Prop) : List (List Char) → Prop
  | [] => True
  | [_] => True
  | p :: rest => P p ∧ allButLast P rest

theorem splitGo_out_of_range (content : List Char) (cs fuel i : Nat)
    (h : content.length ≤ i) : splitGo content cs fuel i = [] := by
  cases fuel with
  | zero => rfl
  | succ f => simp [splitGo, Nat.not_lt.mpr h]

theorem getElem?_take_lt {α : Type} (l : List α) :
    ∀ {n m : Nat}, m < n → (l.take n)[m]? = l[m]? := by
  induction l with
  | nil => intro n m h; simp
  | cons a l2 ih =>
    intro n m h
    cases n with
    | zero => omega
    | succ n2 =>
      cases m with
      | zero => simp
      | succ m2 =>
        simp only [List.take_succ_cons, List.getElem?_cons_succ]
        exact ih (by omega)

theorem getLast?_eq_getElem_len {α : Type} (l : List α) :
    l.getLast? = l[l.length - 1]? := by
  induction l with
  | nil => rfl
  | cons a l2 ih =>
    cases l2 with
    | nil => rfl
    | cons b l3 =>
      rw [List.getLast?_cons_cons, ih]
      have h1 : (a :: b :: l3).length - 1 = ((b :: l3).length - 1) + 1 := by
        simp
      rw [h1, List.getElem?_cons_succ]

theorem splitGo_spec (content : List Char) (cs : Nat) (hcs : 1 ≤ cs) :
    ∀ (fuel : Nat) (i : Nat), content.length - i ≤ fuel →
      (splitGo content cs fuel i).flatten = content.drop i ∧
      (∀ p ∈ splitGo content cs fuel i, p.length ≤ cs) ∧
      (i < content.length → splitGo content cs fuel i ≠ []) ∧
      allButLast pieceOK (splitGo content cs fuel i) := by
  intro fuel
  induction fuel with
  | zero =>
    intro i hfuel
    have hle : content.length ≤ i := by omega
    rw [show splitGo content cs 0 i = [] from rfl]
    refine ⟨?_, by simp, fun hi => absurd hi (by omega), trivial⟩
    rw [List.flatten_nil, List.drop_eq_nil_of_le hle]
  | succ f ih =>
    intro i hfuel
    by_cases hi : i < content.length
    · have heiL : i ≤ content.length := by omega
      have heL : min (i + cs) content.length ≤ content.length :=
        Nat.min_le_right _ _
      have hie : i ≤ min (i + cs) content.length :=
        le_min (by omega) heiL
      have hwlen : ((content.drop i).take
          (min (i + cs) content.length - i)).length =
          min (i + cs) content.length - i := by
        rw [List.length_take, List.length_drop]
        omega
      by_cases he : min (i + cs) content.length < content.length
      · have hics : i + cs < content.length := by
          rcases Nat.le_total (i + cs) content.length with h | h
          · rw [Nat.min_eq_left h] at he
            exact he
          · rw [Nat.min_eq_right h] at he
            omega
        have he2 : min (i + cs) content.length = i + cs :=
          Nat.min_eq_left (by omega)
        have hrest_ih := ih (i + cs) (by omega)
        have hflat_cs : (content.drop i).take (i + cs - i) ++
            content.drop (i + cs) = content.drop i := by
          rw [show i + cs - i = cs by omega]
          have hdd : content.drop (i + cs) = (content.drop i).drop cs := by
            rw [List.drop_drop]
            try congr 1
            try omega
          rw [hdd]
          exact List.take_append_drop cs (content.drop i)
        cases hln : lastIndexNL ((content.drop i).take
            (min (i + cs) content.length - i)) with
        | none =>
          simp only [splitGo, if_pos hi, if_pos he, hln]
          have hrest_ne := hrest_ih.2.2.1 hics
          refine ⟨?_, ?_, fun _ => by simp, ?_⟩
          · rw [List.flatten_cons, hrest_ih.1, he2, hflat_cs]
          · intro p hp
            rcases List.mem_cons.mp hp with hp | hp
            · subst hp
              rw [hwlen]
              omega
            · exact hrest_ih.2.1 p hp
          · cases hr : splitGo content cs f (i + cs) with
            | nil => exact absurd hr hrest_ne
            | cons x xs =>
              show pieceOK _ ∧ allButLast pieceOK (x :: xs)
              refine ⟨Or.inr ?_, hr ▸ hrest_ih.2.2.2⟩
              intro j hj
              rw [hln] at hj
              exact absurd hj (by simp)
        | some j =>
          have hjlt := lastIndexNL_lt hln
          rw [hwlen] at hjlt
          by_cases hhalf : ((content.drop i).take
              (min (i + cs) content.length - i)).length / 2 < j
          · have hj1 : i + j + 1 < content.length := by
              omega
            have hrest_ih2 := ih (i + j + 1) (by omega)
            have hrest_ne := hrest_ih2.2.2.1 hj1
            simp only [splitGo, if_pos hi, if_pos he, hln, if_pos hhalf]
            refine ⟨?_, ?_, fun _ => by simp, ?_⟩
            · rw [List.flatten_cons, hrest_ih2.1]
              have hdd : content.drop (i + j + 1) = (content.drop i).drop (j + 1) := by
                rw [List.drop_drop]
                try congr 1
                try omega
              rw [hdd]
              exact List.take_append_drop (j + 1) (content.drop i)
            · intro p hp
              rcases List.mem_cons.mp hp with hp | hp
              · subst hp
                rw [List.length_take, List.length_drop]
                omega
              · exact hrest_ih2.2.1 p hp
            · cases hr : splitGo content cs f (i + j + 1) with
              | nil => exact absurd hr hrest_ne
              | cons x xs =>
                show pieceOK _ ∧ allButLast pieceOK (x :: xs)
                refine ⟨Or.inl ⟨?_, ?_⟩, hr ▸ hrest_ih2.2.2.2⟩
                · have : ((content.drop i).take (j + 1)).length = j + 1 := by
                    rw [List.length_take, List.length_drop]
                    omega
                  intro hnil
                  rw [hnil] at this
                  simp at this
                · have hplen : ((content.drop i).take (j + 1)).length = j + 1 := by
                    rw [List.length_take, List.length_drop]
                    omega
                  rw [getLast?_eq_getElem_len, hplen]
                  have h1 : ((content.drop i).take (j + 1))[j + 1 - 1]? =
                      (content.drop i)[j]? := by
                    rw [show j + 1 - 1 = j by omega]
                    exact getElem?_take_lt _ (by omega)
                  rw [h1]
                  have h2 := lastIndexNL_getElem hln
                  rw [getElem?_take_lt _ (by omega)] at h2
                  · exact h2
          · have hrest_ne := hrest_ih.2.2.1 hics
            simp only [splitGo, if_pos hi, if_pos he, hln, if_neg hhalf]
            refine ⟨?_, ?_, fun _ => by simp, ?_⟩
            · rw [List.flatten_cons, hrest_ih.1, he2, hflat_cs]
            · intro p hp
              rcases List.mem_cons.mp hp with hp | hp
              · subst hp
                rw [hwlen]
                omega
              · exact hrest_ih.2.1 p hp
            · cases hr : splitGo content cs f (i + cs) with
              | nil => exact absurd hr hrest_ne
              | cons x xs =>
                show pieceOK _ ∧ allButLast pieceOK (x :: xs)
                refine ⟨Or.inr ?_, hr ▸ hrest_ih.2.2.2⟩
                intro j2 hj2
                rw [hln] at hj2
                simp only [Option.some.injEq] at hj2
                subst hj2
                omega
      · have hL : min (i + cs) content.length = content.length := by
          omega
        have hLics : content.length ≤ i + cs := by
          rcases Nat.le_total (i + cs) content.length with h | h
          · rw [Nat.min_eq_left h] at hL
            omega
          · exact h
        have hrest : splitGo content cs f (i + cs) = [] :=
          splitGo_out_of_range content cs f (i + cs) (by omega)
        simp only [splitGo, if_pos hi, if_neg he, hrest]
        refine ⟨?_, ?_, fun _ => by simp, trivial⟩
        · rw [List.flatten_cons, List.flatten_nil, List.append_nil, hL]
          rw [show content.length - i = (content.drop i).length by
            rw [List.length_drop]]
          exact List.take_length _
        · intro p hp
          rcases List.mem_cons.mp hp with hp | hp
          · subst hp
            rw [hwlen]
            omega
          · exact absurd hp (by simp)
    · rw [splitGo_out_of_range content cs (f + 1) i (by omega)]
      refine ⟨?_, by simp, fun h2 => absurd h2 hi, trivial⟩
      rw [List.flatten_nil, List.drop_eq_nil_of_le (by omega)]

/-- C9: for every content and every chunk size ≥ 1, splitContentIntoChunks
returns pieces each no larger than the chunk size whose in-order
concatenation is exactly the original content (no byte duplicated or
dropped), and every non-final piece either ends at a line boundary or has
no newline in its back half (the break-at-line-boundary preference). -/
theorem C9_split_chunks_spec (content : List Char) (cs : Nat) (hcs : 1 ≤ cs) :
    (splitContentIntoChunks content cs).flatten = content ∧
    (∀ p ∈ splitContentIntoChunks content cs, p.length ≤ cs) ∧
    allButLast pieceOK (splitContentIntoChunks content cs) := by
  unfold splitContentIntoChunks
  by_cases h : content.length ≤ cs
  · rw [if_pos h]
    refine ⟨by simp, ?_, trivial⟩
    intro p hp
    rcases List.mem_cons.mp hp with hp | hp
    · subst hp
      exact h
    · exact absurd hp (by simp)
  · rw [if_neg h]
    have hs := splitGo_spec content cs hcs content.length 0 (by omega)
    exact ⟨by rw [hs.1, List.drop_zero], hs.2.1, hs.2.2.2⟩

theorem C9_split_chunks_spec_witness :
    1 ≤ 4 ∧
    (splitContentIntoChunks ("ab\ncd\nefgh".toList) 4).flatten =
      "ab\ncd\nefgh".toList :=
  ⟨by decide, (C9_split_chunks_spec ("ab\ncd\nefgh".toList) 4 (by decide)).1⟩

/-! Chunked-analysis orchestrator (analyzeInChunks, provider.go).
The per-prompt analysis call (analyzeWithOptimization, which delegates to
the underlying provider) is abstracted as a function from prompt to
Except error result. -/

def chunkPromptOf (i n : Nat) (chunk : List Char) : List Char :=
  ("Analysis part " ++ Nat.repr (i + 1) ++ " of " ++ Nat.repr n ++
    ":\n\n").toList ++ chunk

def partResultOf (i : Nat) (result : List Char) : List Char :=
  ("## Part " ++ Nat.repr (i + 1) ++ " Analysis\n").toList ++ result

def chunkErrOf (i : Nat) (e : List Char) : List Char :=
  ("chunk " ++ Nat.repr (i + 1) ++ " analysis failed: ").toList ++ e

def joinSep (sep : List Char) : List (List Char) → List Char
  | [] => []
  | [x] => x
  | x :: y :: rest => x ++ sep ++ joinSep sep (y :: rest)

def summaryPromptOf (combined : List Char) : List Char :=
  ("Provide a comprehensive summary of the following analysis parts:\n\n").toList
    ++ combined ++
    ("\n\nPlease provide:\n1. Overall summary of all changes\n2. Key issues and concerns across all parts\n3. Unified recommendations").toList

def analyzeChunksLoop (f : List Char → Except (List Char) (List Char))
    (n : Nat) : List (List Char) → Nat →
    Except (List Char) (List (List Char))
  | [], _ => Except.ok []
  | c :: rest, i =>
    match f (chunkPromptOf i n c) with
    | Except.error e => Except.error (chunkErrOf i e)
    | Except.ok result =>
      match analyzeChunksLoop f n rest (i + 1) with
      | Except.error e => Except.error e
      | Except.ok rs => Except.ok (partResultOf i result :: rs)

def analyzeInChunks (f : List Char → Except (List Char) (List Char))
    (prompt : List Char) (chunkSize : Nat) :
    Except (List Char) (List Char) :=
  match analyzeChunksLoop f (splitContentIntoChunks prompt chunkSize).length
      (splitContentIntoChunks prompt chunkSize) 0 with
  | Except.error e => Except.error e
  | Except.ok results =>
    match f (summaryPromptOf (joinSep ("\n\n".toList) results)) with
    | Except.error _ => Except.ok (joinSep ("\n\n".toList) results)
    | Except.ok summary =>
      Except.ok (joinSep ("\n\n".toList) results ++
        ("\n\n## Overall Summary\n").toList ++ summary)

theorem analyzeChunksLoop_err (f : List Char → Except (List Char) (List Char))
    (n : Nat) :
    ∀ (cs : List (List Char)) (i0 : Nat),
    (∃ k, ∃ hk : k < cs.length, ∃ e,
        f (chunkPromptOf (i0 + k) n (cs.get ⟨k, hk⟩)) = Except.error e) →
    ∃ e2, analyzeChunksLoop f n cs i0 = Except.error e2 := by
  intro cs
  induction cs with
  | nil =>
    intro i0 h
    rcases h with ⟨k, hk, _⟩
    exact absurd hk (by simp)
  | cons c rest ih =>
    intro i0 h
    cases hf : f (chunkPromptOf i0 n c) with
    | error e =>
      exact ⟨chunkErrOf i0 e, by simp only [analyzeChunksLoop, hf]⟩
    | ok result =>
      have hrest : ∃ k, ∃ hk : k < rest.length, ∃ e,
          f (chunkPromptOf (i0 + 1 + k) n (rest.get ⟨k, hk⟩)) =
            Except.error e := by
        rcases h with ⟨k, hk, e, he⟩
        cases k with
        | zero =>
          rw [Nat.add_zero] at he
          simp only [List.get] at he
          rw [hf] at he
          exact absurd he (by simp)
        | succ k2 =>
          refine ⟨k2, by simpa using hk, e, ?_⟩
          rw [show i0 + 1 + k2 = i0 + (k2 + 1) by omega]
          exact he
      rcases ih (i0 + 1) hrest with ⟨e2, he2⟩
      exact ⟨e2, by simp only [analyzeChunksLoop, hf, he2]⟩

theorem analyzeChunksLoop_ok (f : List Char → Except (List Char) (List Char))
    (n : Nat) (r : Nat → List Char) :
    ∀ (cs : List (List Char)) (i0 : Nat),
    (∀ k, ∀ hk : k < cs.length,
        f (chunkPromptOf (i0 + k) n (cs.get ⟨k, hk⟩)) = Except.ok (r (i0 + k))) →
    analyzeChunksLoop f n cs i0 =
      Except.ok ((List.range cs.length).map
        (fun k => partResultOf (i0 + k) (r (i0 + k)))) := by
  intro cs
  induction cs with
  | nil =>
    intro i0 _
    simp [analyzeChunksLoop]
  | cons c rest ih =>
    intro i0 h
    have h0 := h 0 (by simp)
    rw [Nat.add_zero] at h0
    simp only [List.get] at h0
    have hrest := ih (i0 + 1) (fun k hk => by
      have hk2 : k + 1 < (c :: rest).length := by
        simp only [List.length_cons]
        omega
      have hx := h (k + 1) hk2
      simp only [List.get] at hx
      rw [show i0 + (k + 1) = i0 + 1 + k by omega] at hx
      exact hx)
    simp only [analyzeChunksLoop, h0, hrest]
    rw [List.length_cons, List.range_succ_eq_map, List.map_cons, List.map_map]
    simp only [Nat.add_zero]
    refine congrArg Except.ok ?_
    refine congrArg (fun t => partResultOf i0 (r i0) :: t) ?_
    apply List.map_congr_left
    intro k _
    simp only [Function.comp, Nat.succ_eq_add_one]
    rw [show i0 + (k + 1) = i0 + 1 + k by omega]

/-- C8: in a chunked analysis run, (a) if any per-chunk analysis call fails
the whole operation returns an error (no partial result), and (b) if every
per-chunk call succeeds but the final aggregation (summary) call fails, the
operation succeeds and returns exactly the in-order concatenation of the
per-chunk results, joined by blank lines, without a summary. -/
theorem C8_chunked_analysis_errors
    (f : List Char → Except (List Char) (List Char))
    (prompt : List Char) (chunkSize : Nat) (r : Nat → List Char) :
    ((∃ k, ∃ hk : k < (splitContentIntoChunks prompt chunkSize).length, ∃ e,
        f (chunkPromptOf k (splitContentIntoChunks prompt chunkSize).length
          ((splitContentIntoChunks prompt chunkSize).get ⟨k, hk⟩)) =
          Except.error e) →
      ∃ e2, analyzeInChunks f prompt chunkSize = Except.error e2) ∧
    ((∀ k, ∀ hk : k < (splitContentIntoChunks prompt chunkSize).length,
        f (chunkPromptOf k (splitContentIntoChunks prompt chunkSize).length
          ((splitContentIntoChunks prompt chunkSize).get ⟨k, hk⟩)) =
          Except.ok (r k)) →
      ∀ e, f (summaryPromptOf (joinSep ("\n\n".toList)
          ((List.range (splitContentIntoChunks prompt chunkSize).length).map
            (fun k => partResultOf k (r k))))) = Except.error e →
      analyzeInChunks f prompt chunkSize =
        Except.ok (joinSep ("\n\n".toList)
          ((List.range (splitContentIntoChunks prompt chunkSize).length).map
            (fun k => partResultOf k (r k))))) := by
  constructor
  · intro h
    have hl := analyzeChunksLoop_err f
      (splitContentIntoChunks prompt chunkSize).length
      (splitContentIntoChunks prompt chunkSize) 0 (by
        rcases h with ⟨k, hk, e, he⟩
        exact ⟨k, hk, e, by rw [Nat.zero_add]; exact he⟩)
    rcases hl with ⟨e2, he2⟩
    exact ⟨e2, by simp only [analyzeInChunks, he2]⟩
  · intro h e he
    have hl := analyzeChunksLoop_ok f
      (splitContentIntoChunks prompt chunkSize).length r
      (splitContentIntoChunks prompt chunkSize) 0 (fun k hk => by
        rw [Nat.zero_add]
        exact h k hk)
    simp only [Nat.zero_add] at hl
    simp only [analyzeInChunks, hl, he]

theorem C8_chunked_analysis_errors_witness :
    ∃ e2, analyzeInChunks (fun _ => Except.error ("boom".toList))
      ("ab".toList) 10 = Except.error e2 :=
  (C8_chunked_analysis_errors (fun _ => Except.error ("boom".toList))
      ("ab".toList) 10 (fun _ => [])).1
    ⟨0, by decide, "boom".toList, rfl⟩

/-! Registry of providers (getOrCreateProvider, main.go).
Two callers for the same cache key, modelled as two threads over a shared
registry. Each thread performs the code's two atomic sections in order:
first the read-locked cache lookup (return the cached instance on a hit,
otherwise fall through), then — with no re-check, as in the code —
construct a fresh provider instance and store it under the write lock.
Instances are numbered by a fresh counter standing for llm.NewProvider
allocations; constructCount counts those allocations. -/

structure RegThread where
  pc : Nat
  result : Option Nat
deriving DecidableEq, Repr

structure RegState where
  cache : Option Nat
  nextId : Nat
  constructCount : Nat
  t1 : RegThread
  t2 : RegThread
deriving DecidableEq, Repr

def regInit : RegState :=
  { cache := none, nextId := 0, constructCount := 0,
    t1 := { pc := 0, result := none }, t2 := { pc := 0, result := none } }

def regCheck (s : RegState) (t : RegThread) : RegThread :=
  match t.pc with
  | 0 =>
    match s.cache with
    | some v => { pc := 2, result := some v }
    | none => { pc := 1, result := none }
  | _ => t

def regStep (s : RegState) (who : Bool) : RegState :=
  let t := if who then s.t2 else s.t1
  match t.pc with
  | 0 =>
    let t2 := regCheck s t
    if who then { s with t2 := t2 } else { s with t1 := t2 }
  | 1 =>
    let t2 : RegThread := { pc := 2, result := some s.nextId }
    let s2 := { s with
      cache := some s.nextId
      nextId := s.nextId + 1
      constructCount := s.constructCount + 1 }
    if who then { s2 with t2 := t2 } else { s2 with t1 := t2 }
  | _ => s

def regRun : List Bool → RegState → RegState
  | [], s => s
  | w :: rest, s => regRun rest (regStep s w)

/-- C3: the claim fails on the code as written: getOrCreateProvider does
not re-check the cache after taking the write lock, so under the
interleaving where both callers miss under the read lock before either
constructs, the provider for the one key is constructed twice and the two
callers return handles to two distinct instances. -/
theorem C3_registry_race :
    (regRun [false, true, false, true] regInit).constructCount = 2 ∧
    (regRun [false, true, false, true] regInit).t1.result = some 0 ∧
    (regRun [false, true, false, true] regInit).t2.result = some 1 ∧
    (regRun [false, true, false, true] regInit).t1.result ≠
      (regRun [false, true, false, true] regInit).t2.result := by
  refine ⟨rfl, rfl, rfl, ?_⟩
  decide
